import Mathlib

/-!
Verification of the domain-scoped migration orchestrator (`scripts/migrate.js`).

The script keeps a single ledger table (`knex_migrations`) with columns
`id` (auto-increment), `name`, `batch`, and a timestamp, shared across all
domains.  Migration files live in `src/{domain}/migrations` and are discovered
by a directory scan, filtered to `.js` files and sorted lexically.

JavaScript strings are modelled as Lean `String`s, but every string operation
the script uses (`sort()`, `split(',')`, `trim()`, `endsWith('.js')`,
`includes(',')`) is defined here explicitly on the underlying character list,
matching the JavaScript semantics on the relevant inputs, so that all
definitions evaluate by kernel reduction.

The ledger state is a list of rows kept in ascending-`id` order (the table's
insertion order); `orderBy('id')` is the identity on that list and
`orderBy('id', 'desc')` is `List.reverse`.

The script delegates the per-file ledger bookkeeping to the external migration
executor (`db.migrate.up({ name })` / `db.migrate.down({ name })`, an external
collaborator that is not part of this repository).  Those two calls are
modelled from the spec; see `dbMigrateUp` and `dbMigrateDown`.
-/

namespace Migrate

/-- Code-unit comparison of two strings' character lists: the lexicographic
order JavaScript's default `Array.prototype.sort()` applies to the directory
listing of migration filenames. -/
def chLe : List Char → List Char → Bool
| [], _ => true
| _ :: _, [] => false
| a :: as, b :: bs =>
  if a.toNat < b.toNat then true
  else if b.toNat < a.toNat then false
  else chLe as bs

/-- Lexicographic comparison of strings by code units (JavaScript `a < b`
as used by `sort()`). -/
def strLe (a b : String) : Bool := chLe a.data b.data

/-- Insert a string into an already sorted list (stable). -/
def insertSorted (x : String) : List String → List String
| [] => [x]
| y :: ys => if strLe x y then x :: y :: ys else y :: insertSorted x ys

/-- Stable sort of a string list: the model of `files.sort()`.  On a list of
strings any stable comparison sort produces this result. -/
def sortStrs : List String → List String
| [] => []
| x :: xs => insertSorted x (sortStrs xs)

/-- Boolean test that `small` is an initial segment of `big`. -/
def beginsWith : List Char → List Char → Bool
| [], _ => true
| _ :: _, [] => false
| a :: as, b :: bs => a == b && beginsWith as bs

/-- Model of `f.endsWith('.js')`. -/
def endsDotJs (s : String) : Bool := beginsWith (".js".data.reverse) s.data.reverse

/-- JavaScript whitespace characters relevant to `String.prototype.trim` on
command-line input (space, tab, newline, carriage return). -/
def isWs (c : Char) : Bool := c == ' ' || c == '\t' || c == '\n' || c == '\r'

/-- Model of `s.trim()`: drop whitespace from both ends. -/
def jsTrim (s : String) : String :=
  ⟨((s.data.dropWhile isWs).reverse.dropWhile isWs).reverse⟩

/-- Accumulator pass for `s.split(',')`. -/
def splitCommaAux : List Char → List Char → List (List Char)
| [], acc => [acc.reverse]
| c :: rest, acc =>
  if c == ',' then acc.reverse :: splitCommaAux rest []
  else splitCommaAux rest (c :: acc)

/-- Model of `s.split(',')`. -/
def splitComma (s : String) : List String :=
  (splitCommaAux s.data []).map (fun cs => (⟨cs⟩ : String))

/-- Model of `s.includes(',')`. -/
def containsComma (s : String) : Bool := s.data.any (fun c => c == ',')

/-- The filesystem and the behaviour of the individual migration modules.
`fs` associates a domain to the raw listing of its `migrations` directory; a
domain with no entry models a missing directory.  `upFails f` (resp.
`downFails f`) says that the forward (resp. backward) operation of migration
file `f` throws when executed. -/
structure Config where
  fs : List (String × List String)
  upFails : String → Bool
  downFails : String → Bool

/-- Directory listing for a domain, `none` when `fs.existsSync` is false. -/
def dirOf (cfg : Config) (domain : String) : Option (List String) :=
  (cfg.fs.find? (fun e => e.fst == domain)).map (·.snd)

/-- `getMigrationFiles(domain)`: empty list when the directory is missing,
otherwise the `.js` entries of the listing in lexical order.  (The script also
records each file's path; the path plays no role in any claim and is left
out.) -/
def getMigrationFiles (cfg : Config) (domain : String) : List String :=
  match dirOf cfg domain with
  | none => []
  | some files => sortStrs (files.filter endsDotJs)

/-- One row of the `knex_migrations` ledger table. -/
structure Row where
  id : Nat
  name : String
  batch : Nat
deriving DecidableEq

/-- The persistent store: the ledger rows in ascending-`id` (insertion) order,
plus the next value of the auto-increment column. -/
structure St where
  ledger : List Row
  nextId : Nat
deriving DecidableEq

/-- A fresh database: `ensureMigrationsTable` creates an empty ledger. -/
def St.init : St := ⟨[], 1⟩

/-- `getAppliedMigrations`: the `name` column ordered by `id`. -/
def appliedNames (s : St) : List String := s.ledger.map (·.name)

/-- `getLatestBatch`: `max(batch)` over the ledger, `0` when empty
(`result[0].max_batch || 0`). -/
def getLatestBatch (s : St) : Nat := (s.ledger.map (·.batch)).foldr max 0

/-- Observable execution events: invocation of a migration file's forward or
backward operation. -/
inductive Ev where
| fwd (name : String)
| bwd (name : String)
deriving DecidableEq

/-- Modelled from the spec: the ledger effect of `db.migrate.up({ name })`,
which is performed by the external executor (knex), absent from this
repository.  Per §4.3 the forward operation runs first (it may throw, oracle
`upFails`); on success `recordApplication(name, batch)` inserts one row and
fails if the name is already recorded (§4.2, the at-most-once invariant). -/
def dbMigrateUp (cfg : Config) (n : String) (batch : Nat) (s : St) : St × Bool :=
  if cfg.upFails n then (s, false)
  else if (appliedNames s).contains n then (s, false)
  else ({ ledger := s.ledger ++ [⟨s.nextId, n, batch⟩], nextId := s.nextId + 1 }, true)

/-- Modelled from the spec: the ledger effect of `db.migrate.down({ name })`.
The backward operation runs (it may throw, oracle `downFails`); on success
`removeApplication(name)` deletes the row, a no-op when absent (§4.2). -/
def dbMigrateDown (cfg : Config) (n : String) (s : St) : St × Bool :=
  if cfg.downFails n then (s, false)
  else ({ s with ledger := s.ledger.filter (fun r => r.name != n) }, true)

/-- The `latest` per-file loop: run `db.migrate.up` on each pending file in
order; a throw aborts the whole invocation (uncaught, rethrown by the outer
handler).  Returns the state, the attempted operations, and success. -/
def runUps (cfg : Config) (batch : Nat) : List String → St → St × List Ev × Bool
| [], s => (s, [], true)
| f :: fs, s =>
  let first := dbMigrateUp cfg f batch s
  if first.2 then
    let rest := runUps cfg batch fs first.1
    (rest.1, Ev.fwd f :: rest.2.1, rest.2.2)
  else (first.1, [Ev.fwd f], false)

/-- The `latest` domain loop: `pending` is computed against the `applied`
snapshot taken once at the start of the invocation, and `batch` is the single
batch number of the invocation. -/
def runLatestDomains (cfg : Config) (applied : List String) (batch : Nat) :
    List String → St → St × List Ev × Bool
| [], s => (s, [], true)
| d :: ds, s =>
  let pending := (getMigrationFiles cfg d).filter (fun f => !(applied.contains f))
  let one := runUps cfg batch pending s
  if one.2.2 then
    let rest := runLatestDomains cfg applied batch ds one.1
    (rest.1, one.2.1 ++ rest.2.1, rest.2.2)
  else (one.1, one.2.1, false)

/-- The rows the `rollback` action selects for one domain: ledger rows whose
`batch` equals the current `getLatestBatch` and whose `name` is among the
domain's files, ordered by `id` descending. -/
def toRollback (cfg : Config) (domain : String) (s : St) : List Row :=
  (s.ledger.filter (fun r =>
    r.batch == getLatestBatch s && (getMigrationFiles cfg domain).contains r.name)).reverse

/-- The `rollback` per-file loop: run `db.migrate.down` on each selected row;
a throw aborts the whole invocation (uncaught in this branch). -/
def runDowns (cfg : Config) : List String → St → St × List Ev × Bool
| [], s => (s, [], true)
| n :: ns, s =>
  let first := dbMigrateDown cfg n s
  if first.2 then
    let rest := runDowns cfg ns first.1
    (rest.1, Ev.bwd n :: rest.2.1, rest.2.2)
  else (first.1, [Ev.bwd n], false)

/-- The `rollback` domain loop.  `getLatestBatch` is re-queried inside the
loop, once per domain, exactly as in the script. -/
def runRollbackDomains (cfg : Config) : List String → St → St × List Ev × Bool
| [], s => (s, [], true)
| d :: ds, s =>
  if getLatestBatch s = 0 then runRollbackDomains cfg ds s
  else
    let one := runDowns cfg ((toRollback cfg d s).map (·.name)) s
    if one.2.2 then
      let rest := runRollbackDomains cfg ds one.1
      (rest.1, one.2.1 ++ rest.2.1, rest.2.2)
    else (one.1, one.2.1, false)

/-- `runMigrations(domains, action)` for the three bulk actions sharing one
loop in the script.  The `applied` snapshot and (for `latest`) the invocation
batch `getLatestBatch + 1` are computed once, before the domain loop; `status`
performs no writes. -/
def runMigrations (cfg : Config) (domains : List String) (action : String) (s : St) :
    St × List Ev × Bool :=
  let applied := appliedNames s
  if action = "latest" then runLatestDomains cfg applied (getLatestBatch s + 1) domains s
  else if action = "rollback" then runRollbackDomains cfg domains s
  else (s, [], true)

/-- The `remove` per-file loop (`rollbackDomain`): unlike the `rollback`
branch, each `db.migrate.down` call sits in its own try/catch and a failure is
logged and swallowed — the loop continues with the remaining migrations. -/
def runDownsSwallow (cfg : Config) : List String → St → St × List Ev
| [], s => (s, [])
| n :: ns, s =>
  let first := dbMigrateDown cfg n s
  let rest := runDownsSwallow cfg ns first.1
  (rest.1, Ev.bwd n :: rest.2)

/-- `rollbackDomain(domain)`: all applied rows of the domain regardless of
batch, ordered by `id` descending, each rolled back with per-file errors
swallowed. -/
def rollbackDomain (cfg : Config) (domain : String) (s : St) : St × List Ev :=
  let allFiles := getMigrationFiles cfg domain
  if allFiles = [] then (s, [])
  else
    let appliedMigrations := (s.ledger.filter (fun r => allFiles.contains r.name)).reverse
    runDownsSwallow cfg (appliedMigrations.map (·.name)) s

/-- Sequential `rollbackDomain` calls of the `remove` action. -/
def runRemoveDomains (cfg : Config) : List String → St → St × List Ev
| [], s => (s, [])
| d :: ds, s =>
  let one := rollbackDomain cfg d s
  let rest := runRemoveDomains cfg ds one.1
  (rest.1, one.2 ++ rest.2)

/-- The `remove` action: domains processed in the reverse of the caller-given
order. -/
def execRemove (cfg : Config) (domains : List String) (s : St) : St × List Ev :=
  runRemoveDomains cfg domains.reverse s

/-- Modelled from the spec: whether `filename` resolves to a known migration
in some domain's registry — `up`/`down` on an unknown filename is fatal
(§7, discovery error); the resolution itself happens inside the external
executor. -/
def knownMigration (cfg : Config) (n : String) : Bool :=
  cfg.fs.any (fun e => (e.snd.filter endsDotJs).contains n)

/-- `runSingleMigration(filename, action)` for `up`/`down`.  The batch for a
single `up` is `getLatestBatch + 1` of the invocation (modelled from the
spec's ledger contract, the executor being external). -/
def runSingleMigration (cfg : Config) (filename : String) (action : String) (s : St) :
    St × List Ev × Bool :=
  if !(knownMigration cfg filename) then (s, [], false)
  else if action = "up" then
    let one := dbMigrateUp cfg filename (getLatestBatch s + 1) s
    (one.1, [Ev.fwd filename], one.2)
  else
    let one := dbMigrateDown cfg filename s
    (one.1, [Ev.bwd filename], one.2)

/-- `parseDomains` on a string argument: split on commas, trim, drop empty
segments (guarded by the falsy check on the input). -/
def parseDomainsStr (input : String) : List String :=
  if input = "" then []
  else ((splitComma input).map jsTrim).filter (fun d => d != "")

/-- `parseDomains` on an array argument: elements containing a comma are
split, trimmed and filtered; any other element is returned as `[arg]`
verbatim. -/
def parseDomainsArr (input : List String) : List String :=
  if input = [] then []
  else input.flatMap (fun arg =>
    if containsComma arg then ((splitComma arg).map jsTrim).filter (fun d => d != "")
    else [arg])

/-- Result of command-line validation (lines 292–410 of the script): either a
usage error (printed and exited before any database connection is opened), a
scaffolding run (filesystem only), a single-file run, or a bulk run. -/
inductive Dispatch where
| usage
| createRun (domain name : String)
| singleRun (action filename : String)
| bulkRun (action : String) (domains : List String)
deriving DecidableEq

/-- The recognized bulk action keywords. -/
def actions : List String := ["latest", "rollback", "status", "remove"]

/-- Argument validation and dispatch, mirroring the script's top level: the
`create` check, then the `up`/`down` check (only the first target is
inspected), then the bulk-action check with its non-empty-domains
requirement. -/
def dispatch : List String → Dispatch
| [] => .usage
| a :: rest =>
  if a = "create" then
    match rest with
    | domain :: name :: _ =>
      if domain = "" || name = "" then .usage else .createRun domain name
    | _ => .usage
  else if a = "up" || a = "down" then
    match rest with
    | [] => .usage
    | t :: _ => if endsDotJs t then .singleRun a t else .usage
  else if actions.contains a then
    let domains := parseDomainsArr rest
    if domains = [] then .usage else .bulkRun a domains
  else .usage

/-- A whole invocation: validation, then the dispatched action, returning the
final store state, the executed operations, and the process exit status.  A
usage error exits 1 before touching the store; `create` touches only the
filesystem; `remove` exits 0 (its per-file errors are swallowed). -/
def execArgs (cfg : Config) (args : List String) (s : St) : St × List Ev × Nat :=
  match dispatch args with
  | .usage => (s, [], 1)
  | .createRun _ _ => (s, [], 0)
  | .singleRun action filename =>
    let one := runSingleMigration cfg filename action s
    (one.1, one.2.1, if one.2.2 then 0 else 1)
  | .bulkRun action domains =>
    if action = "remove" then
      let one := execRemove cfg domains s
      (one.1, one.2, 0)
    else
      let one := runMigrations cfg domains action s
      (one.1, one.2.1, if one.2.2 then 0 else 1)

/-- The store-touching commands, for stating reachability of ledger states. -/
inductive Cmd where
| latestC (domains : List String)
| rollbackC (domains : List String)
| statusC (domains : List String)
| removeC (domains : List String)
| upC (filename : String)
| downC (filename : String)

/-- State transition of one command invocation. -/
def execCmd (cfg : Config) : Cmd → St → St
| .latestC ds, s => (runMigrations cfg ds "latest" s).1
| .rollbackC ds, s => (runMigrations cfg ds "rollback" s).1
| .statusC ds, s => (runMigrations cfg ds "status" s).1
| .removeC ds, s => (execRemove cfg ds s).1
| .upC f, s => (runSingleMigration cfg f "up" s).1
| .downC f, s => (runSingleMigration cfg f "down" s).1

/-- Ledger states reachable from a fresh database by any sequence of
invocations. -/
inductive Reachable (cfg : Config) : St → Prop where
| init : Reachable cfg St.init
| step {s : St} (c : Cmd) : Reachable cfg s → Reachable cfg (execCmd cfg c s)

/-- Well-formedness of the migration filesystem, as guaranteed by the naming
scheme `{domain}-{NN}-{name}.js`: distinct domain directories, no duplicate
filenames within a directory, and no filename shared between two domains. -/
def WF (cfg : Config) : Prop :=
  (cfg.fs.map Prod.fst).Nodup ∧
  (∀ e ∈ cfg.fs, (e.snd.filter endsDotJs).Nodup) ∧
  cfg.fs.Pairwise (fun e₁ e₂ => ∀ n ∈ e₁.snd.filter endsDotJs, n ∉ e₂.snd.filter endsDotJs)

end Migrate

namespace Migrate

/-! ### Basic lemmas about the ledger primitives -/

theorem dbMigrateUp_cases (cfg : Config) (n : String) (b : Nat) (s : St) :
    (dbMigrateUp cfg n b s = (s, false)
      ∧ (cfg.upFails n = true ∨ (appliedNames s).contains n = true)) ∨
    (dbMigrateUp cfg n b s
        = ({ ledger := s.ledger ++ [⟨s.nextId, n, b⟩], nextId := s.nextId + 1 }, true)
      ∧ cfg.upFails n = false ∧ (appliedNames s).contains n = false) := by
  unfold dbMigrateUp
  cases hf : cfg.upFails n with
  | true => exact Or.inl ⟨by simp, Or.inl rfl⟩
  | false =>
    cases hc : (appliedNames s).contains n with
    | true => exact Or.inl ⟨by simp, Or.inr rfl⟩
    | false => exact Or.inr ⟨by simp, rfl, rfl⟩

theorem dbMigrateDown_cases (cfg : Config) (n : String) (s : St) :
    (dbMigrateDown cfg n s = (s, false) ∧ cfg.downFails n = true) ∨
    (dbMigrateDown cfg n s
        = ({ s with ledger := s.ledger.filter (fun r => r.name != n) }, true)
      ∧ cfg.downFails n = false) := by
  unfold dbMigrateDown
  cases hf : cfg.downFails n with
  | true => exact Or.inl ⟨by simp, rfl⟩
  | false => exact Or.inr ⟨by simp, rfl⟩

theorem runUps_mem_batch (cfg : Config) (b : Nat) :
    ∀ (fs : List String) (s : St) (r : Row),
      r ∈ (runUps cfg b fs s).1.ledger → r ∈ s.ledger ∨ r.batch = b := by
  intro fs
  induction fs with
  | nil => intro s r hr; exact Or.inl (by simpa [runUps] using hr)
  | cons f fs ih =>
    intro s r hr
    simp only [runUps] at hr
    rcases dbMigrateUp_cases cfg f b s with ⟨heq, _⟩ | ⟨heq, _⟩
    · rw [heq] at hr
      simp only [] at hr
      exact Or.inl hr
    · rw [heq] at hr
      simp only [] at hr
      rcases ih _ r hr with h | h
      · rcases List.mem_append.1 h with h' | h'
        · exact Or.inl h'
        · right
          have : r = ⟨s.nextId, f, b⟩ := by simpa using h'
          simp [this]
      · exact Or.inr h

theorem runLatestDomains_mem_batch (cfg : Config) (applied : List String) (b : Nat) :
    ∀ (ds : List String) (s : St) (r : Row),
      r ∈ (runLatestDomains cfg applied b ds s).1.ledger → r ∈ s.ledger ∨ r.batch = b := by
  intro ds
  induction ds with
  | nil => intro s r hr; exact Or.inl (by simpa [runLatestDomains] using hr)
  | cons d ds ih =>
    intro s r hr
    simp only [runLatestDomains] at hr
    by_cases hok :
        (runUps cfg b ((getMigrationFiles cfg d).filter (fun f => !(applied.contains f))) s).2.2
    · rw [if_pos hok] at hr
      rcases ih _ r hr with h | h
      · exact runUps_mem_batch cfg b _ s r h
      · exact Or.inr h
    · rw [if_neg hok] at hr
      exact runUps_mem_batch cfg b _ s r hr

/-- C1: every migration applied during one `latest(domains)` invocation is
recorded with one and the same batch number, `getLatestBatch + 1` as computed
at the start of the invocation: any row of the resulting ledger either
predates the invocation or carries exactly that batch number. -/
theorem latest_single_batch (cfg : Config) (domains : List String) (s : St) (r : Row)
    (hr : r ∈ (runMigrations cfg domains "latest" s).1.ledger) :
    r ∈ s.ledger ∨ r.batch = getLatestBatch s + 1 := by
  have : (runMigrations cfg domains "latest" s)
      = runLatestDomains cfg (appliedNames s) (getLatestBatch s + 1) domains s := by
    simp [runMigrations]
  rw [this] at hr
  exact runLatestDomains_mem_batch cfg (appliedNames s) (getLatestBatch s + 1) domains s r hr

/-- Concrete filesystem used by several witnesses: two domains, one migration
file each, no failing operations. -/
def cfgW : Config := ⟨[("A", ["a-01-x.js"]), ("B", ["b-01-y.js"])], fun _ => false, fun _ => false⟩

/-- Witness for `latest_single_batch`: the row recorded by `latest A` on a
fresh database carries batch `getLatestBatch St.init + 1 = 1`. -/
theorem latest_single_batch_witness :
    (⟨1, "a-01-x.js", 1⟩ : Row) ∈ St.init.ledger
      ∨ (⟨1, "a-01-x.js", 1⟩ : Row).batch = getLatestBatch St.init + 1 :=
  latest_single_batch cfgW ["A"] St.init ⟨1, "a-01-x.js", 1⟩ (by decide)

end Migrate

namespace Migrate

/-! ### The no-duplicate-names invariant (at-most-once apply) -/

theorem nodup_dbMigrateUp (cfg : Config) (n : String) (b : Nat) (s : St)
    (h : (appliedNames s).Nodup) : (appliedNames (dbMigrateUp cfg n b s).1).Nodup := by
  rcases dbMigrateUp_cases cfg n b s with ⟨heq, _⟩ | ⟨heq, _, hc⟩
  · rw [heq]; exact h
  · rw [heq]
    have hn : n ∉ appliedNames s := by simpa using hc
    have hmap : appliedNames (⟨s.ledger ++ [⟨s.nextId, n, b⟩], s.nextId + 1⟩ : St)
        = appliedNames s ++ [n] := by
      simp [appliedNames]
    rw [hmap]
    exact List.Nodup.append h (List.nodup_singleton n)
      (fun a ha hb => hn (List.mem_singleton.1 hb ▸ ha))

theorem nodup_dbMigrateDown (cfg : Config) (n : String) (s : St)
    (h : (appliedNames s).Nodup) : (appliedNames (dbMigrateDown cfg n s).1).Nodup := by
  rcases dbMigrateDown_cases cfg n s with ⟨heq, _⟩ | ⟨heq, _⟩
  · rw [heq]; exact h
  · rw [heq]
    exact List.Nodup.sublist (List.Sublist.map _ (List.filter_sublist _)) h

theorem nodup_runUps (cfg : Config) (b : Nat) :
    ∀ (fs : List String) (s : St), (appliedNames s).Nodup →
      (appliedNames (runUps cfg b fs s).1).Nodup := by
  intro fs
  induction fs with
  | nil => intro s h; simpa [runUps] using h
  | cons f fs ih =>
    intro s h
    simp only [runUps]
    by_cases hok : (dbMigrateUp cfg f b s).2
    · rw [if_pos hok]
      exact ih _ (nodup_dbMigrateUp cfg f b s h)
    · rw [if_neg hok]
      exact nodup_dbMigrateUp cfg f b s h

theorem nodup_runDowns (cfg : Config) :
    ∀ (ns : List String) (s : St), (appliedNames s).Nodup →
      (appliedNames (runDowns cfg ns s).1).Nodup := by
  intro ns
  induction ns with
  | nil => intro s h; simpa [runDowns] using h
  | cons n ns ih =>
    intro s h
    simp only [runDowns]
    by_cases hok : (dbMigrateDown cfg n s).2
    · rw [if_pos hok]
      exact ih _ (nodup_dbMigrateDown cfg n s h)
    · rw [if_neg hok]
      exact nodup_dbMigrateDown cfg n s h

theorem nodup_runDownsSwallow (cfg : Config) :
    ∀ (ns : List String) (s : St), (appliedNames s).Nodup →
      (appliedNames (runDownsSwallow cfg ns s).1).Nodup := by
  intro ns
  induction ns with
  | nil => intro s h; simpa [runDownsSwallow] using h
  | cons n ns ih =>
    intro s h
    simp only [runDownsSwallow]
    exact ih _ (nodup_dbMigrateDown cfg n s h)

theorem nodup_runLatestDomains (cfg : Config) (applied : List String) (b : Nat) :
    ∀ (ds : List String) (s : St), (appliedNames s).Nodup →
      (appliedNames (runLatestDomains cfg applied b ds s).1).Nodup := by
  intro ds
  induction ds with
  | nil => intro s h; simpa [runLatestDomains] using h
  | cons d ds ih =>
    intro s h
    simp only [runLatestDomains]
    by_cases hok :
        (runUps cfg b ((getMigrationFiles cfg d).filter (fun f => !(applied.contains f))) s).2.2
    · rw [if_pos hok]
      exact ih _ (nodup_runUps cfg b _ s h)
    · rw [if_neg hok]
      exact nodup_runUps cfg b _ s h

theorem nodup_runRollbackDomains (cfg : Config) :
    ∀ (ds : List String) (s : St), (appliedNames s).Nodup →
      (appliedNames (runRollbackDomains cfg ds s).1).Nodup := by
  intro ds
  induction ds with
  | nil => intro s h; simpa [runRollbackDomains] using h
  | cons d ds ih =>
    intro s h
    simp only [runRollbackDomains]
    by_cases hz : getLatestBatch s = 0
    · rw [if_pos hz]; exact ih _ h
    · rw [if_neg hz]
      by_cases hok : (runDowns cfg ((toRollback cfg d s).map (·.name)) s).2.2
      · rw [if_pos hok]
        exact ih _ (nodup_runDowns cfg _ s h)
      · rw [if_neg hok]
        exact nodup_runDowns cfg _ s h

theorem nodup_rollbackDomain (cfg : Config) (d : String) (s : St)
    (h : (appliedNames s).Nodup) : (appliedNames (rollbackDomain cfg d s).1).Nodup := by
  unfold rollbackDomain
  by_cases he : getMigrationFiles cfg d = []
  · rw [if_pos he]; exact h
  · rw [if_neg he]
    exact nodup_runDownsSwallow cfg _ s h

theorem nodup_runRemoveDomains (cfg : Config) :
    ∀ (ds : List String) (s : St), (appliedNames s).Nodup →
      (appliedNames (runRemoveDomains cfg ds s).1).Nodup := by
  intro ds
  induction ds with
  | nil => intro s h; simpa [runRemoveDomains] using h
  | cons d ds ih =>
    intro s h
    simp only [runRemoveDomains]
    exact ih _ (nodup_rollbackDomain cfg d s h)

theorem nodup_execCmd (cfg : Config) (c : Cmd) (s : St)
    (h : (appliedNames s).Nodup) : (appliedNames (execCmd cfg c s)).Nodup := by
  cases c with
  | latestC ds =>
    show (appliedNames (runMigrations cfg ds "latest" s).1).Nodup
    simp only [runMigrations, if_pos]
    exact nodup_runLatestDomains cfg _ _ ds s h
  | rollbackC ds =>
    show (appliedNames (runMigrations cfg ds "rollback" s).1).Nodup
    have : runMigrations cfg ds "rollback" s = runRollbackDomains cfg ds s := by
      simp [runMigrations]
    rw [this]
    exact nodup_runRollbackDomains cfg ds s h
  | statusC ds =>
    show (appliedNames (runMigrations cfg ds "status" s).1).Nodup
    simpa [runMigrations] using h
  | removeC ds =>
    exact nodup_runRemoveDomains cfg ds.reverse s h
  | upC f =>
    show (appliedNames (runSingleMigration cfg f "up" s).1).Nodup
    unfold runSingleMigration
    by_cases hk : knownMigration cfg f
    · simp only [hk, Bool.not_true, Bool.false_eq_true, if_false, if_pos rfl]
      exact nodup_dbMigrateUp cfg f _ s h
    · simp only [Bool.not_eq_true] at hk
      simp [hk]
      exact h
  | downC f =>
    show (appliedNames (runSingleMigration cfg f "down" s).1).Nodup
    unfold runSingleMigration
    by_cases hk : knownMigration cfg f
    · simp only [hk, Bool.not_true, Bool.false_eq_true, if_false]
      rw [if_neg (by decide : ¬("down" : String) = "up")]
      exact nodup_dbMigrateDown cfg f s h
    · simp only [Bool.not_eq_true] at hk
      simp [hk]
      exact h

theorem nodup_of_reachable (cfg : Config) (s : St) (h : Reachable cfg s) :
    (appliedNames s).Nodup := by
  induction h with
  | init => simp [St.init, appliedNames]
  | step c _ ih => exact nodup_execCmd cfg c _ ih

theorem filter_length_le_one {α β : Type} [DecidableEq β] (f : α → β) (b : β) :
    ∀ (l : List α), (l.map f).Nodup → (l.filter (fun x => f x == b)).length ≤ 1 := by
  intro l
  induction l with
  | nil => intro _; simp
  | cons a l ih =>
    intro h
    simp only [List.map_cons, List.nodup_cons] at h
    by_cases hb : f a = b
    · have hempty : l.filter (fun x => f x == b) = [] := by
        apply List.filter_eq_nil_iff.2
        intro x hx hfx
        have : f x = b := by simpa using hfx
        exact h.1 (by rw [hb, ← this]; exact List.mem_map_of_mem f hx)
      simp [List.filter_cons, hb, hempty]
    · simp only [List.filter_cons]
      have : (f a == b) = false := by simpa using hb
      rw [this]
      simpa using ih h.2

/-- C2: at-most-once apply — in any ledger state reachable by any sequence of
invocations from a fresh database, at most one ledger row carries any given
migration name. -/
theorem at_most_once (cfg : Config) (s : St) (h : Reachable cfg s) (n : String) :
    (s.ledger.filter (fun r => r.name == n)).length ≤ 1 :=
  filter_length_le_one (fun r : Row => r.name) n s.ledger (nodup_of_reachable cfg s h)

/-- Witness for `at_most_once`: the state reached by `latest A` from a fresh
database has at most one row named `a-01-x.js`. -/
theorem at_most_once_witness :
    ((execCmd cfgW (Cmd.latestC ["A"]) St.init).ledger.filter
      (fun r => r.name == "a-01-x.js")).length ≤ 1 :=
  at_most_once cfgW (execCmd cfgW (Cmd.latestC ["A"]) St.init)
    (Reachable.step (Cmd.latestC ["A"]) Reachable.init) "a-01-x.js"

end Migrate

namespace Migrate

/-! ### The `remove` action: per-file failures are swallowed -/

theorem runDownsSwallow_trace (cfg : Config) :
    ∀ (ns : List String) (s : St), (runDownsSwallow cfg ns s).2 = ns.map Ev.bwd := by
  intro ns
  induction ns with
  | nil => intro s; simp [runDownsSwallow]
  | cons n ns ih =>
    intro s
    simp only [runDownsSwallow, List.map_cons]
    rw [ih]

theorem runDownsSwallow_ledger (cfg : Config) :
    ∀ (ns : List String) (s : St),
      (runDownsSwallow cfg ns s).1.ledger
        = s.ledger.filter (fun r => !(ns.contains r.name && !(cfg.downFails r.name))) := by
  intro ns
  induction ns with
  | nil => intro s; simp [runDownsSwallow]
  | cons n ns ih =>
    intro s
    simp only [runDownsSwallow]
    rcases dbMigrateDown_cases cfg n s with ⟨heq, hf⟩ | ⟨heq, hf⟩
    · rw [heq, ih]
      apply List.filter_congr
      intro r _
      by_cases hr : r.name = n
      · simp [hr, hf]
      · simp [List.contains_cons, hr, fun h => hr (by simpa using h)]
    · rw [heq, ih]
      show (St.ledger _).filter _ = _
      simp only []
      rw [List.filter_filter]
      apply List.filter_congr
      intro r _
      by_cases hr : r.name = n
      · simp [hr, hf]
      · simp [List.contains_cons, hr]

end Migrate

namespace Migrate

theorem contains_eq_decide (l : List String) (a : String) : l.contains a = decide (a ∈ l) := by
  by_cases h : a ∈ l
  · simp [h]
  · simp [h]

theorem rollbackDomain_trace (cfg : Config) (d : String) (s : St) :
    (rollbackDomain cfg d s).2
      = (s.ledger.filter (fun r => (getMigrationFiles cfg d).contains r.name)).reverse.map
          (fun r => Ev.bwd r.name) := by
  unfold rollbackDomain
  by_cases he : getMigrationFiles cfg d = []
  · rw [if_pos he]
    simp [he]
  · rw [if_neg he]
    rw [runDownsSwallow_trace, List.map_map]
    rfl

theorem rollbackDomain_ledger (cfg : Config) (d : String) (s : St) :
    (rollbackDomain cfg d s).1.ledger
      = s.ledger.filter
          (fun r => !((getMigrationFiles cfg d).contains r.name && !(cfg.downFails r.name))) := by
  unfold rollbackDomain
  by_cases he : getMigrationFiles cfg d = []
  · rw [if_pos he]
    simp [he]
  · rw [if_neg he]
    rw [runDownsSwallow_ledger]
    apply List.filter_congr
    intro r hr
    have hiff :
        (r.name ∈ (s.ledger.filter
            (fun x => (getMigrationFiles cfg d).contains x.name)).reverse.map (·.name))
          ↔ r.name ∈ getMigrationFiles cfg d := by
      constructor
      · intro hm
        rcases List.mem_map.1 hm with ⟨r', hr', hname⟩
        rw [List.mem_reverse] at hr'
        have h2 := (List.mem_filter.1 hr').2
        rw [← hname]
        simpa using h2
      · intro hm
        exact List.mem_map_of_mem _
          (List.mem_reverse.2 (List.mem_filter.2 ⟨hr, by simpa using hm⟩))
    rw [contains_eq_decide, contains_eq_decide ((getMigrationFiles cfg d)) r.name]
    rw [decide_eq_decide.2 hiff]

theorem dispatch_remove (rest : List String) (h : parseDomainsArr rest ≠ []) :
    dispatch ("remove" :: rest) = .bulkRun "remove" (parseDomainsArr rest) := by
  simp only [dispatch]
  rw [if_neg (by decide : ¬("remove" : String) = "create")]
  rw [if_neg (show ¬((decide (("remove" : String) = "up")
    || decide (("remove" : String) = "down")) = true) by decide)]
  rw [if_pos (by decide : actions.contains "remove" = true)]
  rw [if_neg h]

theorem execArgs_remove_exit (cfg : Config) (rest : List String) (s : St)
    (h : parseDomainsArr rest ≠ []) :
    (execArgs cfg ("remove" :: rest) s).2.2 = 0 := by
  unfold execArgs
  rw [dispatch_remove rest h]
  simp

/-- C3 (amended): when a backward operation throws during `remove(domains)`,
the failure is caught and logged and processing continues — every applied row
of the domain still has its backward operation attempted (first conjunct, the
trace covers the whole selection), exactly the rows whose backward operation
succeeded are deleted while the failed ones remain in the Ledger (second
conjunct), and the invocation exits with status 0 (third conjunct). -/
theorem remove_swallows_failures (cfg : Config) (d : String) (s : St) (rest : List String) :
    (rollbackDomain cfg d s).2
      = (s.ledger.filter (fun r => (getMigrationFiles cfg d).contains r.name)).reverse.map
          (fun r => Ev.bwd r.name)
    ∧ (rollbackDomain cfg d s).1.ledger
      = s.ledger.filter
          (fun r => !((getMigrationFiles cfg d).contains r.name && !(cfg.downFails r.name)))
    ∧ (parseDomainsArr rest ≠ [] → (execArgs cfg ("remove" :: rest) s).2.2 = 0) :=
  ⟨rollbackDomain_trace cfg d s, rollbackDomain_ledger cfg d s,
    fun h => execArgs_remove_exit cfg rest s h⟩

/-- Filesystem and oracle for the C3 counterexample: domain `d` has two files
and the backward operation of the second one throws. -/
def cfgC3 : Config :=
  ⟨[("d", ["d-01-a.js", "d-02-b.js"])], fun _ => false, fun n => n == "d-02-b.js"⟩

/-- Ledger with both of `d`'s migrations applied in batch 1. -/
def stC3 : St := ⟨[⟨1, "d-01-a.js", 1⟩, ⟨2, "d-02-b.js", 1⟩], 3⟩

/-- Counterexample to C3 as stated: during `remove d` the backward operation
of `d-02-b.js` (processed first) throws, yet the earlier file `d-01-a.js` is
still attempted and removed — the trace contains both backward events, the
unprocessed-failure row is the only one remaining — and the invocation exits
with status 0, not non-zero. -/
theorem remove_stop_immediately_false :
    execRemove cfgC3 ["d"] stC3
      = (⟨[⟨2, "d-02-b.js", 1⟩], 3⟩, [Ev.bwd "d-02-b.js", Ev.bwd "d-01-a.js"])
    ∧ (execArgs cfgC3 ["remove", "d"] stC3).2.2 = 0 := by
  exact ⟨by decide, by decide⟩

/-- Witness for `remove_swallows_failures` at the counterexample input. -/
theorem remove_swallows_failures_witness :
    (rollbackDomain cfgC3 "d" stC3).2
      = (stC3.ledger.filter (fun r => (getMigrationFiles cfgC3 "d").contains r.name)).reverse.map
          (fun r => Ev.bwd r.name)
    ∧ (execArgs cfgC3 ["remove", "d"] stC3).2.2 = 0 :=
  ⟨(remove_swallows_failures cfgC3 "d" stC3 ["d"]).1,
    (remove_swallows_failures cfgC3 "d" stC3 ["d"]).2.2 (by decide)⟩

end Migrate

namespace Migrate

/-! ### Scoping of the `rollback` action -/

theorem runDowns_frame (cfg : Config) :
    ∀ (ns : List String) (s : St) (r : Row), r ∈ s.ledger → r.name ∉ ns →
      r ∈ (runDowns cfg ns s).1.ledger := by
  intro ns
  induction ns with
  | nil => intro s r hr _; simpa [runDowns] using hr
  | cons n ns ih =>
    intro s r hr hn
    have hne : r.name ≠ n := fun h => hn (by simp [h])
    have hns : r.name ∉ ns := fun h => hn (by simp [h])
    simp only [runDowns]
    rcases dbMigrateDown_cases cfg n s with ⟨heq, _⟩ | ⟨heq, _⟩
    · rw [heq]
      simpa using hr
    · rw [heq]
      simp only [Bool.false_eq_true, if_true]
      apply ih _ r _ hns
      exact List.mem_filter.2 ⟨hr, by simpa using hne⟩

theorem toRollback_names (cfg : Config) (d : String) (s : St) (n : String)
    (h : n ∈ (toRollback cfg d s).map (·.name)) :
    ∃ r' ∈ s.ledger, r'.name = n ∧ r'.batch = getLatestBatch s
      ∧ (getMigrationFiles cfg d).contains n = true := by
  rcases List.mem_map.1 h with ⟨r', hr', hname⟩
  unfold toRollback at hr'
  rw [List.mem_reverse] at hr'
  have := List.mem_filter.1 hr'
  refine ⟨r', this.1, hname, ?_, ?_⟩
  · have hb := this.2
    simp only [Bool.and_eq_true, beq_iff_eq] at hb
    exact hb.1
  · have hb := this.2
    simp only [Bool.and_eq_true, beq_iff_eq] at hb
    rw [← hname]
    exact hb.2

theorem runRollbackDomains_frame (cfg : Config) :
    ∀ (ds : List String) (s : St) (r : Row), r ∈ s.ledger →
      (∀ d ∈ ds, (getMigrationFiles cfg d).contains r.name = false) →
      r ∈ (runRollbackDomains cfg ds s).1.ledger := by
  intro ds
  induction ds with
  | nil => intro s r hr _; simpa [runRollbackDomains] using hr
  | cons d ds ih =>
    intro s r hr hd
    simp only [runRollbackDomains]
    by_cases hz : getLatestBatch s = 0
    · rw [if_pos hz]
      exact ih s r hr (fun d' hd' => hd d' (List.mem_cons_of_mem d hd'))
    · rw [if_neg hz]
      have hnotin : r.name ∉ (toRollback cfg d s).map (·.name) := by
        intro hmem
        rcases toRollback_names cfg d s r.name hmem with ⟨r', _, _, _, hc⟩
        rw [hd d (List.mem_cons_self d ds)] at hc
        exact Bool.false_ne_true hc
      have hsurv := runDowns_frame cfg _ s r hr hnotin
      by_cases hok : (runDowns cfg ((toRollback cfg d s).map (·.name)) s).2.2
      · rw [if_pos hok]
        exact ih _ r hsurv (fun d' hd' => hd d' (List.mem_cons_of_mem d hd'))
      · rw [if_neg hok]
        exact hsurv

theorem runRollbackDomains_single (cfg : Config) (d : String) (s : St) :
    (runRollbackDomains cfg [d] s).1
      = if getLatestBatch s = 0 then s
        else (runDowns cfg ((toRollback cfg d s).map (·.name)) s).1 := by
  simp only [runRollbackDomains]
  by_cases hz : getLatestBatch s = 0
  · rw [if_pos hz, if_pos hz]
  · rw [if_neg hz, if_neg hz]
    by_cases hok : (runDowns cfg ((toRollback cfg d s).map (·.name)) s).2.2
    · rw [if_pos hok]
    · rw [if_neg hok]

/-- C4 (amended): a `rollback(domains)` invocation deletes only ledger rows
whose name belongs to a requested domain's file registry — rows of domains
not requested, in particular same-batch rows of other domains, always survive
(first conjunct) — and each domain's pass deletes only rows whose batch
equals `getLatestBatch` as recomputed at the start of that pass (second
conjunct, stated for the pass = a single-domain invocation from its starting
state); when an earlier pass drains the top batch, a later pass can therefore
reach into an earlier batch, which is what refutes the claim as stated. -/
theorem rollback_scoping (cfg : Config) (domains : List String) (s : St)
    (hreach : Reachable cfg s) (r : Row) (hr : r ∈ s.ledger) :
    ((∀ d ∈ domains, (getMigrationFiles cfg d).contains r.name = false) →
      r ∈ (runMigrations cfg domains "rollback" s).1.ledger)
    ∧ (∀ d : String, r ∉ (runMigrations cfg [d] "rollback" s).1.ledger →
        r.batch = getLatestBatch s ∧ (getMigrationFiles cfg d).contains r.name = true) := by
  have hrm : ∀ ds : List String,
      (runMigrations cfg ds "rollback" s).1 = (runRollbackDomains cfg ds s).1 := by
    intro ds
    simp [runMigrations]
  constructor
  · intro hd
    rw [hrm]
    exact runRollbackDomains_frame cfg domains s r hr hd
  · intro d hdel
    rw [hrm, runRollbackDomains_single] at hdel
    by_cases hz : getLatestBatch s = 0
    · rw [if_pos hz] at hdel
      exact absurd hr hdel
    · rw [if_neg hz] at hdel
      have hmem : r.name ∈ (toRollback cfg d s).map (·.name) := by
        by_contra hnot
        exact hdel (runDowns_frame cfg _ s r hr hnot)
      rcases toRollback_names cfg d s r.name hmem with ⟨r', hr', hname, hbatch, hc⟩
      have hrr : r' = r :=
        List.inj_on_of_nodup_map (nodup_of_reachable cfg s hreach) hr' hr hname
      exact ⟨hrr ▸ hbatch, hc⟩

/-- Counterexample to C4 as stated: after `latest A` (batch 1) and `latest B`
(batch 2), the invocation `rollback B,A` deletes the batch-1 row of domain `A`
even though its batch (1) differs from the invocation's latest batch (2) —
the batch is recomputed after `B`'s pass drains batch 2, so the whole ledger
ends empty instead of retaining `A`'s row. -/
theorem rollback_latest_batch_only_false :
    (⟨1, "a-01-x.js", 1⟩ : Row) ∈ (runMigrations cfgW ["B"] "latest"
        (runMigrations cfgW ["A"] "latest" St.init).1).1.ledger
    ∧ getLatestBatch (runMigrations cfgW ["B"] "latest"
        (runMigrations cfgW ["A"] "latest" St.init).1).1 = 2
    ∧ (⟨1, "a-01-x.js", 1⟩ : Row).batch ≠ 2
    ∧ (runMigrations cfgW ["B", "A"] "rollback"
        (runMigrations cfgW ["B"] "latest"
          (runMigrations cfgW ["A"] "latest" St.init).1).1).1.ledger = [] := by
  exact ⟨by decide, by decide, by decide, by decide⟩

/-- Witness for `rollback_scoping`: in the two-batch state above, `rollback B`
leaves domain `A`'s row in place. -/
theorem rollback_scoping_witness :
    (⟨1, "a-01-x.js", 1⟩ : Row)
      ∈ (runMigrations cfgW ["B"] "rollback"
          (execCmd cfgW (Cmd.latestC ["B"]) (execCmd cfgW (Cmd.latestC ["A"]) St.init))).1.ledger :=
  (rollback_scoping cfgW ["B"]
      (execCmd cfgW (Cmd.latestC ["B"]) (execCmd cfgW (Cmd.latestC ["A"]) St.init))
      (Reachable.step (Cmd.latestC ["B"]) (Reachable.step (Cmd.latestC ["A"]) Reachable.init))
      ⟨1, "a-01-x.js", 1⟩ (by decide)).1 (by decide)

end Migrate

namespace Migrate

/-! ### Idempotence of `latest` -/

theorem runUps_monotone (cfg : Config) (b : Nat) :
    ∀ (fs : List String) (s : St) (r : Row), r ∈ s.ledger →
      r ∈ (runUps cfg b fs s).1.ledger := by
  intro fs
  induction fs with
  | nil => intro s r hr; simpa [runUps] using hr
  | cons f fs ih =>
    intro s r hr
    simp only [runUps]
    rcases dbMigrateUp_cases cfg f b s with ⟨heq, _⟩ | ⟨heq, _⟩
    · rw [heq]; simpa using hr
    · rw [heq]
      simp only [Bool.false_eq_true, if_true]
      exact ih _ r (by simp [hr])

theorem runUps_success_names (cfg : Config) (b : Nat) :
    ∀ (fs : List String) (s : St), (runUps cfg b fs s).2.2 = true →
      ∀ f ∈ fs, f ∈ appliedNames (runUps cfg b fs s).1 := by
  intro fs
  induction fs with
  | nil => intro s _ f hf; exact absurd hf (List.not_mem_nil f)
  | cons g fs ih =>
    intro s hok f hf
    simp only [runUps] at hok ⊢
    rcases dbMigrateUp_cases cfg g b s with ⟨heq, _⟩ | ⟨heq, _⟩
    · rw [heq] at hok ⊢
      simp at hok
    · rw [heq] at hok ⊢
      simp only [Bool.false_eq_true, if_true] at hok ⊢
      rcases List.mem_cons.1 hf with hfg | hfs
      · subst hfg
        have : (⟨s.nextId, f, b⟩ : Row)
            ∈ (runUps cfg b fs
                (⟨s.ledger ++ [⟨s.nextId, f, b⟩], s.nextId + 1⟩ : St)).1.ledger :=
          runUps_monotone cfg b fs _ _ (by simp)
        exact List.mem_map.2 ⟨_, this, rfl⟩
      · exact ih _ hok f hfs

theorem runLatestDomains_monotone (cfg : Config) (applied : List String) (b : Nat) :
    ∀ (ds : List String) (s : St) (r : Row), r ∈ s.ledger →
      r ∈ (runLatestDomains cfg applied b ds s).1.ledger := by
  intro ds
  induction ds with
  | nil => intro s r hr; simpa [runLatestDomains] using hr
  | cons d ds ih =>
    intro s r hr
    simp only [runLatestDomains]
    by_cases hok :
        (runUps cfg b ((getMigrationFiles cfg d).filter (fun f => !(applied.contains f))) s).2.2
    · rw [if_pos hok]
      exact ih _ r (runUps_monotone cfg b _ s r hr)
    · rw [if_neg hok]
      exact runUps_monotone cfg b _ s r hr

theorem runLatestDomains_success_names (cfg : Config) (b : Nat) :
    ∀ (ds : List String) (applied : List String) (s : St),
      (∀ f ∈ applied, f ∈ appliedNames s) →
      (runLatestDomains cfg applied b ds s).2.2 = true →
      ∀ d ∈ ds, ∀ f ∈ getMigrationFiles cfg d,
        f ∈ appliedNames (runLatestDomains cfg applied b ds s).1 := by
  intro ds
  induction ds with
  | nil => intro applied s _ _ d hd; exact absurd hd (List.not_mem_nil d)
  | cons d₀ ds ih =>
    intro applied s happ hok d hd f hf
    simp only [runLatestDomains] at hok ⊢
    by_cases h1 :
        (runUps cfg b ((getMigrationFiles cfg d₀).filter (fun f => !(applied.contains f))) s).2.2
    · rw [if_pos h1] at hok ⊢
      have hmono1 : ∀ g, g ∈ appliedNames
          (runUps cfg b ((getMigrationFiles cfg d₀).filter (fun f => !(applied.contains f))) s).1 →
          g ∈ appliedNames (runLatestDomains cfg applied b ds
            (runUps cfg b ((getMigrationFiles cfg d₀).filter (fun f => !(applied.contains f))) s).1).1 := by
        intro g hg
        rcases List.mem_map.1 hg with ⟨r, hr, hname⟩
        exact List.mem_map.2 ⟨r, runLatestDomains_monotone cfg applied b ds _ r hr, hname⟩
      have happ1 : ∀ g ∈ applied, g ∈ appliedNames
          (runUps cfg b ((getMigrationFiles cfg d₀).filter (fun f => !(applied.contains f))) s).1 := by
        intro g hg
        rcases List.mem_map.1 (happ g hg) with ⟨r, hr, hname⟩
        exact List.mem_map.2 ⟨r, runUps_monotone cfg b _ s r hr, hname⟩
      rcases List.mem_cons.1 hd with hdd | hds
      · subst hdd
        by_cases hfa : applied.contains f
        · exact hmono1 f (happ1 f (by simpa using hfa))
        · have hfp : f ∈ (getMigrationFiles cfg d).filter (fun g => !(applied.contains g)) :=
            List.mem_filter.2 ⟨hf, by simpa using hfa⟩
          exact hmono1 f (runUps_success_names cfg b _ s h1 f hfp)
      · exact ih applied _ happ1 hok d hds f hf
    · rw [if_neg h1] at hok
      simp at hok

theorem runLatestDomains_noop (cfg : Config) (applied : List String) (b : Nat) :
    ∀ (ds : List String) (s : St),
      (∀ d ∈ ds, ∀ f ∈ getMigrationFiles cfg d, applied.contains f = true) →
      runLatestDomains cfg applied b ds s = (s, [], true) := by
  intro ds
  induction ds with
  | nil => intro s _; rfl
  | cons d ds ih =>
    intro s h
    have hpend : (getMigrationFiles cfg d).filter (fun f => !(applied.contains f)) = [] := by
      apply List.filter_eq_nil_iff.2
      intro f hf
      rw [h d (List.mem_cons_self d ds) f hf]
      decide
    have hrest := ih s (fun d' hd' => h d' (List.mem_cons_of_mem d hd'))
    simp only [runLatestDomains, hpend, runUps, hrest]
    simp

/-- C7: idempotent `latest` — if a `latest(domains)` invocation runs to
completion, an immediately repeated `latest(domains)` from the resulting
state executes zero forward operations (its trace is empty) and inserts zero
rows (the state is returned unchanged), and succeeds. -/
theorem latest_idempotent (cfg : Config) (ds : List String) (s : St)
    (hok : (runMigrations cfg ds "latest" s).2.2 = true) :
    runMigrations cfg ds "latest" (runMigrations cfg ds "latest" s).1
      = ((runMigrations cfg ds "latest" s).1, [], true) := by
  have hrm : ∀ t : St, runMigrations cfg ds "latest" t
      = runLatestDomains cfg (appliedNames t) (getLatestBatch t + 1) ds t := by
    intro t; simp [runMigrations]
  rw [hrm] at hok
  have hall : ∀ d ∈ ds, ∀ f ∈ getMigrationFiles cfg d,
      f ∈ appliedNames (runLatestDomains cfg (appliedNames s) (getLatestBatch s + 1) ds s).1 :=
    runLatestDomains_success_names cfg (getLatestBatch s + 1) ds (appliedNames s) s
      (fun _ h => h) hok
  rw [hrm, hrm]
  apply runLatestDomains_noop
  intro d hd f hf
  have := hall d hd f hf
  simpa using this

/-- Witness for `latest_idempotent`: after `latest A,B` on a fresh database,
a second `latest A,B` is a successful no-op. -/
theorem latest_idempotent_witness :
    runMigrations cfgW ["A", "B"] "latest" (runMigrations cfgW ["A", "B"] "latest" St.init).1
      = ((runMigrations cfgW ["A", "B"] "latest" St.init).1, [], true) :=
  latest_idempotent cfgW ["A", "B"] St.init (by decide)

end Migrate

namespace Migrate

/-! ### Missing directories versus unknown filenames -/

theorem getMigrationFiles_of_missing (cfg : Config) (d : String)
    (hdir : dirOf cfg d = none) : getMigrationFiles cfg d = [] := by
  unfold getMigrationFiles
  rw [hdir]

theorem latest_missing_dir (cfg : Config) (d : String) (s : St)
    (hdir : dirOf cfg d = none) : runMigrations cfg [d] "latest" s = (s, [], true) := by
  have h := runLatestDomains_noop cfg (appliedNames s) (getLatestBatch s + 1) [d] s
    (by intro d' hd' f hf
        rw [List.mem_singleton.1 hd'] at hf
        rw [getMigrationFiles_of_missing cfg d hdir] at hf
        exact absurd hf (List.not_mem_nil f))
  simpa [runMigrations] using h

theorem status_noop (cfg : Config) (ds : List String) (s : St) :
    runMigrations cfg ds "status" s = (s, [], true) := by
  simp [runMigrations]

theorem rollback_missing_dir (cfg : Config) (d : String) (s : St)
    (hdir : dirOf cfg d = none) : runMigrations cfg [d] "rollback" s = (s, [], true) := by
  have hreg := getMigrationFiles_of_missing cfg d hdir
  have htr : toRollback cfg d s = [] := by
    unfold toRollback
    rw [hreg]
    simp
  have hrm : runMigrations cfg [d] "rollback" s = runRollbackDomains cfg [d] s := by
    simp [runMigrations]
  rw [hrm]
  by_cases hz : getLatestBatch s = 0
  · simp only [runRollbackDomains, if_pos hz]
  · simp only [runRollbackDomains, if_neg hz, htr]
    simp [runDowns, runRollbackDomains]

theorem remove_missing_dir (cfg : Config) (d : String) (s : St)
    (hdir : dirOf cfg d = none) : execRemove cfg [d] s = (s, []) := by
  have hreg := getMigrationFiles_of_missing cfg d hdir
  simp [execRemove, runRemoveDomains, rollbackDomain, hreg]

theorem execArgs_up_unknown (cfg : Config) (f : String) (s : St)
    (hunk : knownMigration cfg f = false) : (execArgs cfg ["up", f] s).2.2 = 1 := by
  by_cases hjs : endsDotJs f = true
  · have hd : dispatch ["up", f] = .singleRun "up" f := by
      simp only [dispatch]
      rw [if_neg (by decide : ¬("up" : String) = "create")]
      rw [if_pos (show ((decide True || decide (("up" : String) = "down")) = true) by decide)]
      rw [if_pos hjs]
    simp [execArgs, hd, runSingleMigration, hunk]
  · have hd : dispatch ["up", f] = .usage := by
      simp only [dispatch]
      rw [if_neg (by decide : ¬("up" : String) = "create")]
      rw [if_pos (show ((decide True || decide (("up" : String) = "down")) = true) by decide)]
      rw [if_neg hjs]
    simp [execArgs, hd]

theorem execArgs_down_unknown (cfg : Config) (f : String) (s : St)
    (hunk : knownMigration cfg f = false) : (execArgs cfg ["down", f] s).2.2 = 1 := by
  by_cases hjs : endsDotJs f = true
  · have hd : dispatch ["down", f] = .singleRun "down" f := by
      simp only [dispatch]
      rw [if_neg (by decide : ¬("down" : String) = "create")]
      rw [if_pos (show ((decide (("down" : String) = "up") || decide True) = true) by decide)]
      rw [if_pos hjs]
    simp [execArgs, hd, runSingleMigration, hunk]
  · have hd : dispatch ["down", f] = .usage := by
      simp only [dispatch]
      rw [if_neg (by decide : ¬("down" : String) = "create")]
      rw [if_pos (show ((decide (("down" : String) = "up") || decide True) = true) by decide)]
      rw [if_neg hjs]
    simp [execArgs, hd]

/-- C8: discovery-error asymmetry — a domain whose migration directory does
not exist yields an empty registry, and every bulk action treats it as a
successful no-op on the store, whereas an `up` or `down` invocation naming a
filename that resolves to no known migration exits with status 1. -/
theorem discovery_asymmetry (cfg : Config) (d : String) (s : St) (f : String)
    (hdir : dirOf cfg d = none) (hunk : knownMigration cfg f = false) :
    getMigrationFiles cfg d = []
    ∧ runMigrations cfg [d] "latest" s = (s, [], true)
    ∧ runMigrations cfg [d] "status" s = (s, [], true)
    ∧ runMigrations cfg [d] "rollback" s = (s, [], true)
    ∧ execRemove cfg [d] s = (s, [])
    ∧ (execArgs cfg ["up", f] s).2.2 = 1
    ∧ (execArgs cfg ["down", f] s).2.2 = 1 :=
  ⟨getMigrationFiles_of_missing cfg d hdir,
   latest_missing_dir cfg d s hdir,
   status_noop cfg [d] s,
   rollback_missing_dir cfg d s hdir,
   remove_missing_dir cfg d s hdir,
   execArgs_up_unknown cfg f s hunk,
   execArgs_down_unknown cfg f s hunk⟩

/-- Witness for `discovery_asymmetry`: domain `missing` has no directory in
`cfgW` and `zzz-99-none.js` resolves to no known migration. -/
theorem discovery_asymmetry_witness :
    getMigrationFiles cfgW "missing" = []
    ∧ runMigrations cfgW ["missing"] "latest" stC3 = (stC3, [], true)
    ∧ (execArgs cfgW ["up", "zzz-99-none.js"] stC3).2.2 = 1 :=
  ⟨(discovery_asymmetry cfgW "missing" stC3 "zzz-99-none.js" (by decide) (by decide)).1,
   (discovery_asymmetry cfgW "missing" stC3 "zzz-99-none.js" (by decide) (by decide)).2.1,
   (discovery_asymmetry cfgW "missing" stC3 "zzz-99-none.js" (by decide) (by decide)).2.2.2.2.2.1⟩

end Migrate

namespace Migrate

/-! ### Command-surface validation -/

theorem dispatch_usage_unknown (a : String) (rest : List String)
    (h1 : a ≠ "create") (h2 : a ≠ "up") (h3 : a ≠ "down")
    (h4 : actions.contains a = false) : dispatch (a :: rest) = .usage := by
  simp only [dispatch]
  rw [if_neg h1]
  rw [if_neg (show ¬((decide (a = "up") || decide (a = "down")) = true) by simp [h2, h3])]
  rw [if_neg (show ¬(actions.contains a = true) from fun hc => Bool.false_ne_true (h4 ▸ hc))]

theorem dispatch_usage_updown (a : String) (rest : List String)
    (h : a = "up" ∨ a = "down")
    (hr : ∀ t ts, rest = t :: ts → endsDotJs t = false) :
    dispatch (a :: rest) = .usage := by
  have h1 : a ≠ "create" := by rcases h with rfl | rfl <;> decide
  simp only [dispatch]
  rw [if_neg h1]
  rw [if_pos (show ((decide (a = "up") || decide (a = "down")) = true) by
    rcases h with rfl | rfl <;> decide)]
  cases rest with
  | nil => rfl
  | cons t ts =>
    show (if endsDotJs t = true then Dispatch.singleRun a t else Dispatch.usage) = Dispatch.usage
    rw [if_neg (show ¬(endsDotJs t = true) by simp [hr t ts rfl])]

theorem dispatch_usage_bulk (a : String) (rest : List String)
    (h1 : a ≠ "create") (h2 : a ≠ "up") (h3 : a ≠ "down")
    (h4 : actions.contains a = true) (hp : parseDomainsArr rest = []) :
    dispatch (a :: rest) = .usage := by
  simp only [dispatch]
  rw [if_neg h1]
  rw [if_neg (show ¬((decide (a = "up") || decide (a = "down")) = true) by simp [h2, h3])]
  rw [if_pos h4, if_pos hp]

/-- C9 (amended): invocations with no recognized action keyword, `up`/`down`
invocations with no target argument or whose first target does not end in
`.js` (only the first target is inspected; extra filename arguments are
ignored, see the counterexample), and bulk actions whose domain list parses
to empty, all print usage and exit 1 while performing no operation and no
write against the store (state returned unchanged, empty trace; `dispatch`
decides this before `execArgs` touches the state). -/
theorem usage_validation (cfg : Config) (s : St) (a : String) (rest : List String) :
    execArgs cfg [] s = (s, [], 1)
    ∧ (a ∉ (["create", "up", "down", "latest", "rollback", "status", "remove"] : List String) →
        execArgs cfg (a :: rest) s = (s, [], 1))
    ∧ ((a = "up" ∨ a = "down") → (∀ t ts, rest = t :: ts → endsDotJs t = false) →
        execArgs cfg (a :: rest) s = (s, [], 1))
    ∧ (a ∈ actions → parseDomainsArr rest = [] →
        execArgs cfg (a :: rest) s = (s, [], 1)) := by
  refine ⟨rfl, ?_, ?_, ?_⟩
  · intro hnot
    have h1 : a ≠ "create" := fun h => hnot (by simp [h])
    have h2 : a ≠ "up" := fun h => hnot (by simp [h])
    have h3 : a ≠ "down" := fun h => hnot (by simp [h])
    have h4 : actions.contains a = false := by
      rw [contains_eq_decide]
      apply decide_eq_false
      intro hmem
      apply hnot
      have : a = "latest" ∨ a = "rollback" ∨ a = "status" ∨ a = "remove" := by
        simpa [actions] using hmem
      rcases this with rfl | rfl | rfl | rfl <;> simp
    simp [execArgs, dispatch_usage_unknown a rest h1 h2 h3 h4]
  · intro h hr
    simp [execArgs, dispatch_usage_updown a rest h hr]
  · intro ha hp
    have ha' : a = "latest" ∨ a = "rollback" ∨ a = "status" ∨ a = "remove" := by
      simpa [actions] using ha
    rcases ha' with rfl | rfl | rfl | rfl
    · simp [execArgs,
        dispatch_usage_bulk "latest" rest (by decide) (by decide) (by decide) (by decide) hp]
    · simp [execArgs,
        dispatch_usage_bulk "rollback" rest (by decide) (by decide) (by decide) (by decide) hp]
    · simp [execArgs,
        dispatch_usage_bulk "status" rest (by decide) (by decide) (by decide) (by decide) hp]
    · simp [execArgs,
        dispatch_usage_bulk "remove" rest (by decide) (by decide) (by decide) (by decide) hp]

/-- Counterexample to C9 as stated: `up a-01-x.js b-01-y.js` carries two
filename arguments, so it does not have exactly one filename argument, yet
the script only inspects the first target: it dispatches to a single-file
run, touches the ledger (one row inserted, a forward operation executed) and
exits 0 instead of failing with usage. -/
theorem up_two_filenames_not_usage :
    dispatch ["up", "a-01-x.js", "b-01-y.js"] = .singleRun "up" "a-01-x.js"
    ∧ execArgs cfgW ["up", "a-01-x.js", "b-01-y.js"] St.init
        = (⟨[⟨1, "a-01-x.js", 1⟩], 2⟩, [Ev.fwd "a-01-x.js"], 0) := by
  exact ⟨by decide, by decide⟩

/-- Witness for `usage_validation`: an unrecognized action, a bare `up`, and
a bulk action whose domain list parses to empty all exit 1 untouched. -/
theorem usage_validation_witness :
    execArgs cfgW ["bogus"] St.init = (St.init, [], 1)
    ∧ execArgs cfgW ["up"] St.init = (St.init, [], 1)
    ∧ execArgs cfgW ["latest", ","] St.init = (St.init, [], 1) :=
  ⟨(usage_validation cfgW St.init "bogus" []).2.1 (by decide),
   (usage_validation cfgW St.init "up" []).2.2.1 (Or.inl rfl)
     (fun t ts h => List.noConfusion h),
   (usage_validation cfgW St.init "latest" [","]).2.2.2 (by decide) (by decide)⟩

/-! ### Domain-list parsing -/

/-- C10 (amended): `parseDomains` splits, trims and drops empty segments only
for string input and for array elements that contain a comma; an array
element without a comma is passed through verbatim, untrimmed and possibly
empty.  A bulk invocation whose parsed domain list is empty is rejected with
a usage error before any store access. -/
theorem parseDomains_normalization (cfg : Config) (s : St) (input : String)
    (args : List String) (arg : String) (a : String) :
    (∀ x ∈ parseDomainsStr input, x ≠ "")
    ∧ (arg ∈ args → containsComma arg = false → arg ∈ parseDomainsArr args)
    ∧ (a ∈ actions → parseDomainsArr args = [] → execArgs cfg (a :: args) s = (s, [], 1)) := by
  refine ⟨?_, ?_, ?_⟩
  · intro x hx
    unfold parseDomainsStr at hx
    by_cases hi : input = ""
    · rw [if_pos hi] at hx
      exact absurd hx (List.not_mem_nil x)
    · rw [if_neg hi] at hx
      have := (List.mem_filter.1 hx).2
      simpa using this
  · intro hmem hcom
    unfold parseDomainsArr
    rw [if_neg (by intro h; rw [h] at hmem; exact List.not_mem_nil arg hmem)]
    apply List.mem_flatMap.2
    exact ⟨arg, hmem, by rw [hcom]; simp⟩
  · intro ha hp
    have ha' : a = "latest" ∨ a = "rollback" ∨ a = "status" ∨ a = "remove" := by
      simpa [actions] using ha
    rcases ha' with rfl | rfl | rfl | rfl
    · simp [execArgs,
        dispatch_usage_bulk "latest" args (by decide) (by decide) (by decide) (by decide) hp]
    · simp [execArgs,
        dispatch_usage_bulk "rollback" args (by decide) (by decide) (by decide) (by decide) hp]
    · simp [execArgs,
        dispatch_usage_bulk "status" args (by decide) (by decide) (by decide) (by decide) hp]
    · simp [execArgs,
        dispatch_usage_bulk "remove" args (by decide) (by decide) (by decide) (by decide) hp]

/-- Counterexample to C10 as stated: an array element without a comma is not
trimmed and not dropped when empty — `parseDomains([''])` yields `['']`, so
the resulting domain list can contain the empty string, and `parseDomains(['  '])`
keeps the whitespace untrimmed. -/
theorem parseDomains_verbatim_not_trimmed :
    parseDomainsArr [""] = [""] ∧ parseDomainsArr ["  "] = ["  "] := by
  exact ⟨by decide, by decide⟩

/-- Witness for `parseDomains_normalization` at concrete inputs. -/
theorem parseDomains_normalization_witness :
    ("a" : String) ≠ ""
    ∧ ("x" : String) ∈ parseDomainsArr ["x"]
    ∧ execArgs cfgW ["remove"] St.init = (St.init, [], 1) :=
  ⟨(parseDomains_normalization cfgW St.init "a,,b" ["x"] "x" "remove").1 "a" (by decide),
   (parseDomains_normalization cfgW St.init "a,,b" ["x"] "x" "remove").2.1
     (by decide) (by decide),
   (parseDomains_normalization cfgW St.init "a,,b" [] "x" "remove").2.2
     (by decide) (by decide)⟩

end Migrate

namespace Migrate

/-! ### Properties of the lexical sort -/

theorem chLe_total : ∀ (as bs : List Char), chLe as bs = true ∨ chLe bs as = true := by
  intro as
  induction as with
  | nil => intro bs; left; rfl
  | cons a as ih =>
    intro bs
    cases bs with
    | nil => right; rfl
    | cons b bs =>
      rcases Nat.lt_trichotomy a.toNat b.toNat with h | h | h
      · left; simp [chLe, h]
      · have h1 : ¬ a.toNat < b.toNat := by omega
        have h2 : ¬ b.toNat < a.toNat := by omega
        rcases ih bs with hh | hh
        · left; simp [chLe, h1, h2, hh]
        · right; simp [chLe, h1, h2, hh]
      · right; simp [chLe, h]

theorem chLe_trans : ∀ (as bs cs : List Char),
    chLe as bs = true → chLe bs cs = true → chLe as cs = true := by
  intro as
  induction as with
  | nil => intro bs cs _ _; rfl
  | cons a as ih =>
    intro bs cs h1 h2
    cases bs with
    | nil => simp [chLe] at h1
    | cons b bs =>
      cases cs with
      | nil => simp [chLe] at h2
      | cons c cs =>
        rcases Nat.lt_trichotomy a.toNat b.toNat with hab | hab | hab
        · rcases Nat.lt_trichotomy b.toNat c.toNat with hbc | hbc | hbc
          · have hac : a.toNat < c.toNat := Nat.lt_trans hab hbc
            simp [chLe, hac]
          · have hac : a.toNat < c.toNat := hbc ▸ hab
            simp [chLe, hac]
          · exfalso
            have hnb : ¬ b.toNat < c.toNat := by omega
            simp [chLe, hnb, hbc] at h2
        · have hn1 : ¬ a.toNat < b.toNat := by omega
          have hn2 : ¬ b.toNat < a.toNat := by omega
          have h1' : chLe as bs = true := by simpa [chLe, hn1, hn2] using h1
          rcases Nat.lt_trichotomy b.toNat c.toNat with hbc | hbc | hbc
          · have hac : a.toNat < c.toNat := hab ▸ hbc
            simp [chLe, hac]
          · have hn3 : ¬ a.toNat < c.toNat := by omega
            have hn4 : ¬ c.toNat < a.toNat := by omega
            have hn5 : ¬ b.toNat < c.toNat := by omega
            have hn6 : ¬ c.toNat < b.toNat := by omega
            have h2' : chLe bs cs = true := by simpa [chLe, hn5, hn6] using h2
            simpa [chLe, hn3, hn4] using ih bs cs h1' h2'
          · exfalso
            have hnb : ¬ b.toNat < c.toNat := by omega
            simp [chLe, hnb, hbc] at h2
        · exfalso
          have hna : ¬ a.toNat < b.toNat := by omega
          simp [chLe, hna, hab] at h1

theorem strLe_total (a b : String) : strLe a b = true ∨ strLe b a = true :=
  chLe_total a.data b.data

theorem strLe_trans {a b c : String} (h1 : strLe a b = true) (h2 : strLe b c = true) :
    strLe a c = true :=
  chLe_trans a.data b.data c.data h1 h2

theorem mem_insertSorted (x y : String) :
    ∀ l, y ∈ insertSorted x l ↔ y = x ∨ y ∈ l := by
  intro l
  induction l with
  | nil => simp [insertSorted]
  | cons z zs ih =>
    by_cases h : strLe x z = true
    · simp [insertSorted, h]
    · simp only [insertSorted, if_neg h, List.mem_cons, ih]
      tauto

theorem insertSorted_perm (x : String) : ∀ l, (insertSorted x l).Perm (x :: l) := by
  intro l
  induction l with
  | nil => simp [insertSorted]
  | cons z zs ih =>
    by_cases h : strLe x z = true
    · simp [insertSorted, h]
    · rw [insertSorted, if_neg h]
      exact List.Perm.trans (List.Perm.cons z ih) (List.Perm.swap x z zs)

theorem sortStrs_perm : ∀ l, (sortStrs l).Perm l := by
  intro l
  induction l with
  | nil => simp [sortStrs]
  | cons x xs ih =>
    exact List.Perm.trans (insertSorted_perm x (sortStrs xs)) (List.Perm.cons x ih)

theorem insertSorted_sorted (x : String) :
    ∀ l, l.Pairwise (fun a b => strLe a b = true) →
      (insertSorted x l).Pairwise (fun a b => strLe a b = true) := by
  intro l
  induction l with
  | nil => intro _; simp [insertSorted]
  | cons z zs ih =>
    intro h
    rcases List.pairwise_cons.1 h with ⟨hz, hzs⟩
    by_cases hx : strLe x z = true
    · rw [insertSorted, if_pos hx]
      apply List.pairwise_cons.2
      refine ⟨?_, h⟩
      intro y hy
      rcases List.mem_cons.1 hy with rfl | hy'
      · exact hx
      · exact strLe_trans hx (hz y hy')
    · rw [insertSorted, if_neg hx]
      apply List.pairwise_cons.2
      refine ⟨?_, ih hzs⟩
      intro y hy
      rcases (mem_insertSorted x y zs).1 hy with rfl | hy'
      · rcases strLe_total y z with hh | hh
        · exact absurd hh hx
        · exact hh
      · exact hz y hy'

theorem sortStrs_sorted : ∀ l, (sortStrs l).Pairwise (fun a b => strLe a b = true) := by
  intro l
  induction l with
  | nil => simp [sortStrs]
  | cons x xs ih => exact insertSorted_sorted x (sortStrs xs) ih

theorem sortStrs_nodup {l : List String} (h : l.Nodup) : (sortStrs l).Nodup :=
  (List.Perm.nodup_iff (sortStrs_perm l)).2 h

theorem mem_sortStrs {l : List String} {x : String} : x ∈ sortStrs l ↔ x ∈ l :=
  (sortStrs_perm l).mem_iff

theorem getMigrationFiles_sorted (cfg : Config) (d : String) :
    (getMigrationFiles cfg d).Pairwise (fun a b => strLe a b = true) := by
  unfold getMigrationFiles
  cases dirOf cfg d with
  | none => simp
  | some files => exact sortStrs_sorted _

end Migrate

namespace Migrate

/-! ### Consequences of filesystem well-formedness -/

theorem registry_entry (cfg : Config) (d : String) (f : String)
    (hf : f ∈ getMigrationFiles cfg d) :
    ∃ e ∈ cfg.fs, e.fst = d ∧ f ∈ e.snd.filter endsDotJs := by
  unfold getMigrationFiles dirOf at hf
  cases hfind : cfg.fs.find? (fun e => e.fst == d) with
  | none => rw [hfind] at hf; simp at hf
  | some e =>
    rw [hfind] at hf
    simp only [Option.map_some'] at hf
    refine ⟨e, List.mem_of_find?_eq_some hfind, ?_, ?_⟩
    · have := List.find?_some hfind
      simpa using this
    · exact mem_sortStrs.1 hf

theorem WF_registry_nodup (cfg : Config) (hwf : WF cfg) (d : String) :
    (getMigrationFiles cfg d).Nodup := by
  unfold getMigrationFiles dirOf
  cases hfind : cfg.fs.find? (fun e => e.fst == d) with
  | none => simp
  | some e =>
    simp only [Option.map_some']
    exact sortStrs_nodup (hwf.2.1 e (List.mem_of_find?_eq_some hfind))

theorem WF_disjoint (cfg : Config) (hwf : WF cfg) {d d' : String} {f : String}
    (hne : d ≠ d') (h1 : f ∈ getMigrationFiles cfg d) (h2 : f ∈ getMigrationFiles cfg d') :
    False := by
  rcases registry_entry cfg d f h1 with ⟨e, he, hefst, hef⟩
  rcases registry_entry cfg d' f h2 with ⟨e', he', hefst', hef'⟩
  have hee : e ≠ e' := fun h => hne (hefst ▸ hefst' ▸ congrArg Prod.fst h)
  have hsym : Symmetric (fun e₁ e₂ : String × List String =>
      ∀ n ∈ e₁.snd.filter endsDotJs, n ∉ e₂.snd.filter endsDotJs) :=
    fun _ _ h n hn₂ hn₁ => h n hn₁ hn₂
  exact List.Pairwise.forall hsym hwf.2.2 he he' hee f hef hef'

end Migrate

namespace Migrate

/-! ### Exact shape of a fully successful `latest` run -/

/-- The rows a clean run inserts for files `fs`, batch `b`, ids from `k`. -/
def mkRows (b : Nat) : Nat → List String → List Row
| _, [] => []
| k, f :: fs => ⟨k, f, b⟩ :: mkRows b (k + 1) fs

theorem mkRows_names (b : Nat) :
    ∀ (k : Nat) (fs : List String), (mkRows b k fs).map (·.name) = fs := by
  intro k fs
  induction fs generalizing k with
  | nil => rfl
  | cons f fs ih => simp [mkRows, ih]

theorem mkRows_append (b : Nat) :
    ∀ (fs₁ fs₂ : List String) (k : Nat),
      mkRows b k (fs₁ ++ fs₂) = mkRows b k fs₁ ++ mkRows b (k + fs₁.length) fs₂ := by
  intro fs₁
  induction fs₁ with
  | nil => intro fs₂ k; simp [mkRows]
  | cons f fs ih =>
    intro fs₂ k
    show (⟨k, f, b⟩ : Row) :: mkRows b (k + 1) (fs ++ fs₂)
        = (⟨k, f, b⟩ : Row) :: (mkRows b (k + 1) fs ++ mkRows b (k + (f :: fs).length) fs₂)
    rw [ih fs₂ (k + 1)]
    have h : k + 1 + fs.length = k + (f :: fs).length := by
      simp only [List.length_cons]
      omega
    rw [h]

theorem runUps_clean (cfg : Config) (b : Nat) :
    ∀ (fs : List String) (s : St),
      (∀ f ∈ fs, cfg.upFails f = false) → fs.Nodup →
      (∀ f ∈ fs, f ∉ appliedNames s) →
      runUps cfg b fs s
        = (⟨s.ledger ++ mkRows b s.nextId fs, s.nextId + fs.length⟩, fs.map Ev.fwd, true) := by
  intro fs
  induction fs with
  | nil =>
    intro s _ _ _
    simp [runUps, mkRows]
  | cons f fs ih =>
    intro s hup hnd hfresh
    have hf : cfg.upFails f = false := hup f (List.mem_cons_self f fs)
    have hcon : (appliedNames s).contains f = false := by
      have := hfresh f (List.mem_cons_self f fs)
      rw [contains_eq_decide]
      exact decide_eq_false this
    have heq : dbMigrateUp cfg f b s
        = (⟨s.ledger ++ [⟨s.nextId, f, b⟩], s.nextId + 1⟩, true) := by
      rcases dbMigrateUp_cases cfg f b s with ⟨_, hbad⟩ | ⟨h, _, _⟩
      · rcases hbad with hbad | hbad
        · rw [hf] at hbad; exact absurd hbad (by decide)
        · rw [hcon] at hbad; exact absurd hbad (by decide)
      · exact h
    have hih := ih (⟨s.ledger ++ [⟨s.nextId, f, b⟩], s.nextId + 1⟩ : St)
      (fun g hg => hup g (List.mem_cons_of_mem f hg))
      (List.Nodup.of_cons hnd)
      (by
        intro g hg hmem
        simp only [appliedNames] at hmem
        rcases List.mem_map.1 hmem with ⟨r, hr, hname⟩
        rcases List.mem_append.1 hr with hr' | hr'
        · exact hfresh g (List.mem_cons_of_mem f hg) (List.mem_map.2 ⟨r, hr', hname⟩)
        · have hrow : r = ⟨s.nextId, f, b⟩ := List.mem_singleton.1 hr'
          have hgf : g = f := by rw [← hname, hrow]
          exact (List.nodup_cons.1 hnd).1 (hgf ▸ hg))
    simp only [runUps, heq, if_true]
    rw [hih]
    have harr : (s.ledger ++ [⟨s.nextId, f, b⟩] : List Row) ++ mkRows b (s.nextId + 1) fs
        = s.ledger ++ (⟨s.nextId, f, b⟩ : Row) :: mkRows b (s.nextId + 1) fs := by
      rw [List.append_assoc]
      rfl
    have hlen : s.nextId + 1 + fs.length = s.nextId + (fs.length + 1) := by omega
    simp only [mkRows, List.length_cons, List.map_cons, harr, hlen]
end Migrate

namespace Migrate

theorem runLatestDomains_clean (cfg : Config) (applied : List String) (b : Nat)
    (hwf : WF cfg) :
    ∀ (ds : List String) (s : St), ds.Nodup →
      (∀ d ∈ ds, ∀ f ∈ getMigrationFiles cfg d, cfg.upFails f = false) →
      (∀ d ∈ ds, ∀ f ∈ getMigrationFiles cfg d, applied.contains f = false) →
      (∀ d ∈ ds, ∀ f ∈ getMigrationFiles cfg d, f ∉ appliedNames s) →
      runLatestDomains cfg applied b ds s
        = (⟨s.ledger ++ mkRows b s.nextId (ds.flatMap (getMigrationFiles cfg)),
            s.nextId + (ds.flatMap (getMigrationFiles cfg)).length⟩,
           ds.flatMap (fun d => (getMigrationFiles cfg d).map Ev.fwd), true) := by
  intro ds
  induction ds with
  | nil =>
    intro s _ _ _ _
    simp [runLatestDomains, mkRows]
  | cons d ds ih =>
    intro s hnd hup hap hfresh
    have hdmem : d ∈ d :: ds := List.mem_cons_self d ds
    have hpend : (getMigrationFiles cfg d).filter (fun f => !(applied.contains f))
        = getMigrationFiles cfg d := by
      apply List.filter_eq_self.2
      intro f hf
      rw [hap d hdmem f hf]
      decide
    have hclean := runUps_clean cfg b (getMigrationFiles cfg d) s
      (hup d hdmem) (WF_registry_nodup cfg hwf d) (hfresh d hdmem)
    have hihres := ih (⟨s.ledger ++ mkRows b s.nextId (getMigrationFiles cfg d),
        s.nextId + (getMigrationFiles cfg d).length⟩ : St)
      (List.Nodup.of_cons hnd)
      (fun d' hd' f hf => hup d' (List.mem_cons_of_mem d hd') f hf)
      (fun d' hd' f hf => hap d' (List.mem_cons_of_mem d hd') f hf)
      (by
        intro d' hd' f hf hmem
        simp only [appliedNames] at hmem
        rcases List.mem_map.1 hmem with ⟨r, hr, hname⟩
        rcases List.mem_append.1 hr with hr' | hr'
        · exact hfresh d' (List.mem_cons_of_mem d hd') f hf
            (List.mem_map.2 ⟨r, hr', hname⟩)
        · have hnames : r.name ∈ (mkRows b s.nextId (getMigrationFiles cfg d)).map (·.name) :=
            List.mem_map_of_mem (·.name) hr'
          rw [mkRows_names] at hnames
          rw [hname] at hnames
          have hdd' : d ≠ d' := fun h => (List.nodup_cons.1 hnd).1 (h ▸ hd')
          exact WF_disjoint cfg hwf hdd' hnames hf)
    simp only [runLatestDomains, hpend, hclean]
    rw [hihres]
    have harr : s.ledger ++ mkRows b s.nextId (getMigrationFiles cfg d)
          ++ mkRows b (s.nextId + (getMigrationFiles cfg d).length)
            (ds.flatMap (getMigrationFiles cfg))
        = s.ledger ++ mkRows b s.nextId ((d :: ds).flatMap (getMigrationFiles cfg)) := by
      rw [List.append_assoc]
      rw [show (d :: ds).flatMap (getMigrationFiles cfg)
        = getMigrationFiles cfg d ++ ds.flatMap (getMigrationFiles cfg) from rfl]
      rw [mkRows_append]
    have hlen : s.nextId + (getMigrationFiles cfg d).length
          + (ds.flatMap (getMigrationFiles cfg)).length
        = s.nextId + ((d :: ds).flatMap (getMigrationFiles cfg)).length := by
      rw [show (d :: ds).flatMap (getMigrationFiles cfg)
        = getMigrationFiles cfg d ++ ds.flatMap (getMigrationFiles cfg) from rfl]
      rw [List.length_append]
      omega
    simp only [harr, hlen, if_true]
    rw [show (d :: ds).flatMap (fun d => (getMigrationFiles cfg d).map Ev.fwd)
      = (getMigrationFiles cfg d).map Ev.fwd
        ++ ds.flatMap (fun d => (getMigrationFiles cfg d).map Ev.fwd) from rfl]

end Migrate

namespace Migrate

/-! ### Exact order of operations of `remove` after a clean `latest` -/

theorem map_bwd_names (l : List Row) :
    l.map (fun r => Ev.bwd r.name) = (l.map (·.name)).map Ev.bwd := by
  induction l with
  | nil => rfl
  | cons r l ih => simp [ih]

theorem filter_flatMap_registry (cfg : Config) (hwf : WF cfg) :
    ∀ (ds : List String) (d : String), ds.Nodup → d ∈ ds →
      (ds.flatMap (getMigrationFiles cfg)).filter
          (fun f => (getMigrationFiles cfg d).contains f)
        = getMigrationFiles cfg d := by
  intro ds
  induction ds with
  | nil => intro d _ hd; exact absurd hd (List.not_mem_nil d)
  | cons d₀ ds ih =>
    intro d hnd hd
    rw [show (d₀ :: ds).flatMap (getMigrationFiles cfg)
      = getMigrationFiles cfg d₀ ++ ds.flatMap (getMigrationFiles cfg) from rfl]
    rw [List.filter_append]
    rcases List.mem_cons.1 hd with rfl | hd'
    · have h1 : (getMigrationFiles cfg d).filter
          (fun f => (getMigrationFiles cfg d).contains f) = getMigrationFiles cfg d :=
        List.filter_eq_self.2 (fun f hf => by
          rw [contains_eq_decide]; exact decide_eq_true hf)
      have h2 : (ds.flatMap (getMigrationFiles cfg)).filter
          (fun f => (getMigrationFiles cfg d).contains f) = [] := by
        apply List.filter_eq_nil_iff.2
        intro f hf hc
        rcases List.mem_flatMap.1 hf with ⟨d', hd', hfd'⟩
        have hne : d ≠ d' := fun h => (List.nodup_cons.1 hnd).1 (h ▸ hd')
        have hfm : f ∈ getMigrationFiles cfg d := by simpa using hc
        exact WF_disjoint cfg hwf hne hfm hfd'
      rw [h1, h2, List.append_nil]
    · have h1 : (getMigrationFiles cfg d₀).filter
          (fun f => (getMigrationFiles cfg d).contains f) = [] := by
        apply List.filter_eq_nil_iff.2
        intro f hf hc
        have hne : d₀ ≠ d := fun h => (List.nodup_cons.1 hnd).1 (h ▸ hd')
        have hfm : f ∈ getMigrationFiles cfg d := by simpa using hc
        exact WF_disjoint cfg hwf hne hf hfm
      rw [h1, ih d (List.Nodup.of_cons hnd) hd', List.nil_append]

theorem runRemoveDomains_clean (cfg : Config) (hwf : WF cfg) :
    ∀ (es : List String) (s : St), es.Nodup →
      (∀ d ∈ es, ∀ f ∈ getMigrationFiles cfg d, cfg.downFails f = false) →
      (∀ d ∈ es,
        ((s.ledger.filter (fun r => (getMigrationFiles cfg d).contains r.name)).map (·.name))
          = getMigrationFiles cfg d) →
      (runRemoveDomains cfg es s).2
        = es.flatMap (fun d => (getMigrationFiles cfg d).reverse.map Ev.bwd) := by
  intro es
  induction es with
  | nil => intro s _ _ _; rfl
  | cons d es ih =>
    intro s hnd hdown hinv
    have hdmem := List.mem_cons_self d es
    have htr : (rollbackDomain cfg d s).2 = (getMigrationFiles cfg d).reverse.map Ev.bwd := by
      rw [rollbackDomain_trace, List.map_reverse, map_bwd_names, hinv d hdmem,
        List.map_reverse]
    have hled : (rollbackDomain cfg d s).1.ledger
        = s.ledger.filter (fun r => !((getMigrationFiles cfg d).contains r.name)) := by
      rw [rollbackDomain_ledger]
      apply List.filter_congr
      intro r hr
      cases hc : (getMigrationFiles cfg d).contains r.name with
      | false => rfl
      | true =>
        have hmem : r.name ∈ getMigrationFiles cfg d := by simpa using hc
        rw [hdown d hdmem r.name hmem]
        rfl
    have hinv' : ∀ d' ∈ es,
        (((rollbackDomain cfg d s).1.ledger.filter
            (fun r => (getMigrationFiles cfg d').contains r.name)).map (·.name))
          = getMigrationFiles cfg d' := by
      intro d' hd'
      rw [hled, List.filter_filter]
      have hcongr : s.ledger.filter (fun r => (getMigrationFiles cfg d').contains r.name
            && !((getMigrationFiles cfg d).contains r.name))
          = s.ledger.filter (fun r => (getMigrationFiles cfg d').contains r.name) := by
        apply List.filter_congr
        intro r hr
        cases hc : (getMigrationFiles cfg d').contains r.name with
        | false => rfl
        | true =>
          have hmem' : r.name ∈ getMigrationFiles cfg d' := by simpa using hc
          have hne : d ≠ d' := fun h => (List.nodup_cons.1 hnd).1 (h ▸ hd')
          have hnotd : (getMigrationFiles cfg d).contains r.name = false := by
            rw [contains_eq_decide]
            apply decide_eq_false
            intro hmem
            exact WF_disjoint cfg hwf hne hmem hmem'
          rw [hnotd]
          rfl
      rw [hcongr]
      exact hinv d' (List.mem_cons_of_mem d hd')
    simp only [runRemoveDomains]
    rw [htr, ih (rollbackDomain cfg d s).1 (List.Nodup.of_cons hnd)
      (fun d' hd' f hf => hdown d' (List.mem_cons_of_mem d hd') f hf) hinv',
      List.flatMap_cons]

end Migrate

namespace Migrate

theorem filter_names_map (p : String → Bool) : ∀ (l : List Row),
    ((l.filter (fun r => p r.name)).map (·.name)) = (l.map (·.name)).filter p := by
  intro l
  induction l with
  | nil => rfl
  | cons r l ih =>
    cases hp : p r.name with
    | true => simp [List.filter_cons, hp, ih]
    | false => simp [List.filter_cons, hp, ih]

theorem mkRows_filter_registry (cfg : Config) (hwf : WF cfg) (b k : Nat)
    (ds : List String) (hnd : ds.Nodup) (d : String) (hd : d ∈ ds) :
    ((mkRows b k (ds.flatMap (getMigrationFiles cfg))).filter
        (fun r => (getMigrationFiles cfg d).contains r.name)).map (·.name)
      = getMigrationFiles cfg d := by
  rw [filter_names_map, mkRows_names]
  exact filter_flatMap_registry cfg hwf ds d hnd hd

/-- C6: order invariant — migration file registries are in ascending lexical
order (first conjunct); a `latest(domains)` call on a fresh database executes
the forward operations of each domain's files in exactly that ascending
order, with the domains processed in the caller-given order (second
conjunct); and a subsequent `remove(domains)` executes the backward
operations in exactly the reverse per-domain order, with the domains
processed in the reverse of the caller-given order (third conjunct). -/
theorem order_invariant (cfg : Config) (ds : List String)
    (hwf : WF cfg) (hnd : ds.Nodup)
    (hup : ∀ d ∈ ds, ∀ f ∈ getMigrationFiles cfg d, cfg.upFails f = false)
    (hdown : ∀ d ∈ ds, ∀ f ∈ getMigrationFiles cfg d, cfg.downFails f = false) :
    (∀ d, (getMigrationFiles cfg d).Pairwise (fun a b => strLe a b = true))
    ∧ (runMigrations cfg ds "latest" St.init).2.1
        = ds.flatMap (fun d => (getMigrationFiles cfg d).map Ev.fwd)
    ∧ (execRemove cfg ds (runMigrations cfg ds "latest" St.init).1).2
        = ds.reverse.flatMap (fun d => (getMigrationFiles cfg d).reverse.map Ev.bwd) := by
  have hrm : runMigrations cfg ds "latest" St.init
      = runLatestDomains cfg (appliedNames St.init) (getLatestBatch St.init + 1) ds St.init := by
    simp [runMigrations]
  have hclean := runLatestDomains_clean cfg (appliedNames St.init)
    (getLatestBatch St.init + 1) hwf ds St.init hnd hup
    (fun d hd f hf => rfl)
    (fun d hd f hf hmem => absurd hmem (List.not_mem_nil f))
  refine ⟨getMigrationFiles_sorted cfg, ?_, ?_⟩
  · rw [hrm, hclean]
  · rw [hrm, hclean]
    refine runRemoveDomains_clean cfg hwf ds.reverse _ (List.nodup_reverse.2 hnd)
      (fun d hd f hf => hdown d (List.mem_reverse.1 hd) f hf) ?_
    intro d hd
    simp only [List.nil_append]
    exact mkRows_filter_registry cfg hwf _ _ ds hnd d (List.mem_reverse.1 hd)

/-- Concrete filesystem for the order-invariant witness: domain `d` with
three sequenced files, domain `e` with one. -/
def cfgO : Config :=
  ⟨[("d", ["d-01-a.js", "d-02-b.js", "d-03-c.js"]), ("e", ["e-01-x.js"])],
   fun _ => false, fun _ => false⟩

theorem cfgO_wf : WF cfgO := by
  refine ⟨by decide, ?_, ?_⟩
  · intro e he
    rcases List.mem_cons.1 he with rfl | he
    · decide
    · rcases List.mem_cons.1 he with rfl | he
      · decide
      · exact absurd he (List.not_mem_nil e)
  · refine List.pairwise_cons.2 ⟨?_, List.pairwise_singleton _ _⟩
    intro e' he'
    rcases List.mem_cons.1 he' with rfl | he'
    · decide
    · exact absurd he' (List.not_mem_nil e')

/-- Witness for `order_invariant` at `cfgO` with caller order `d, e`. -/
theorem order_invariant_witness :
    (runMigrations cfgO ["d", "e"] "latest" St.init).2.1
      = ["d", "e"].flatMap (fun d => (getMigrationFiles cfgO d).map Ev.fwd)
    ∧ (execRemove cfgO ["d", "e"] (runMigrations cfgO ["d", "e"] "latest" St.init).1).2
      = ["d", "e"].reverse.flatMap (fun d => (getMigrationFiles cfgO d).reverse.map Ev.bwd) :=
  ⟨(order_invariant cfgO ["d", "e"] cfgO_wf (by decide) (by decide) (by decide)).2.1,
   (order_invariant cfgO ["d", "e"] cfgO_wf (by decide) (by decide) (by decide)).2.2⟩

end Migrate

namespace Migrate

/-! ### Sorted-within-batch invariant of reachable ledgers -/

theorem le_foldr_max : ∀ (l : List Nat) (x : Nat), x ∈ l → x ≤ l.foldr max 0 := by
  intro l
  induction l with
  | nil => intro x hx; exact absurd hx (List.not_mem_nil x)
  | cons b bs ih =>
    intro x hx
    rcases List.mem_cons.1 hx with rfl | hx'
    · exact Nat.le_max_left _ _
    · exact Nat.le_trans (ih x hx') (Nat.le_max_right _ _)

theorem batch_le_getLatestBatch (s : St) (r : Row) (hr : r ∈ s.ledger) :
    r.batch ≤ getLatestBatch s := by
  unfold getLatestBatch
  exact le_foldr_max _ r.batch (List.mem_map_of_mem (·.batch) hr)

theorem dbMigrateDown_sublist (cfg : Config) (n : String) (s : St) :
    (dbMigrateDown cfg n s).1.ledger.Sublist s.ledger := by
  rcases dbMigrateDown_cases cfg n s with ⟨heq, _⟩ | ⟨heq, _⟩
  · rw [heq]
  · rw [heq]
    exact List.filter_sublist _

theorem runDowns_sublist (cfg : Config) :
    ∀ (ns : List String) (s : St), (runDowns cfg ns s).1.ledger.Sublist s.ledger := by
  intro ns
  induction ns with
  | nil => intro s; simp [runDowns]
  | cons n ns ih =>
    intro s
    simp only [runDowns]
    by_cases hok : (dbMigrateDown cfg n s).2
    · rw [if_pos hok]
      exact List.Sublist.trans (ih _) (dbMigrateDown_sublist cfg n s)
    · rw [if_neg hok]
      exact dbMigrateDown_sublist cfg n s

theorem runRollbackDomains_sublist (cfg : Config) :
    ∀ (ds : List String) (s : St),
      (runRollbackDomains cfg ds s).1.ledger.Sublist s.ledger := by
  intro ds
  induction ds with
  | nil => intro s; simp [runRollbackDomains]
  | cons d ds ih =>
    intro s
    simp only [runRollbackDomains]
    by_cases hz : getLatestBatch s = 0
    · rw [if_pos hz]; exact ih s
    · rw [if_neg hz]
      by_cases hok : (runDowns cfg ((toRollback cfg d s).map (·.name)) s).2.2
      · rw [if_pos hok]
        exact List.Sublist.trans (ih _) (runDowns_sublist cfg _ s)
      · rw [if_neg hok]
        exact runDowns_sublist cfg _ s

theorem rollbackDomain_sublist (cfg : Config) (d : String) (s : St) :
    (rollbackDomain cfg d s).1.ledger.Sublist s.ledger := by
  rw [rollbackDomain_ledger]
  exact List.filter_sublist _

theorem runRemoveDomains_sublist (cfg : Config) :
    ∀ (ds : List String) (s : St),
      (runRemoveDomains cfg ds s).1.ledger.Sublist s.ledger := by
  intro ds
  induction ds with
  | nil => intro s; simp [runRemoveDomains]
  | cons d ds ih =>
    intro s
    simp only [runRemoveDomains]
    exact List.Sublist.trans (ih _) (rollbackDomain_sublist cfg d s)

theorem runUps_shape (cfg : Config) (b : Nat) :
    ∀ (fs : List String) (t : St), ∃ (newRows : List Row) (q : List String),
      (runUps cfg b fs t).1.ledger = t.ledger ++ newRows
      ∧ fs = newRows.map (·.name) ++ q
      ∧ ∀ r ∈ newRows, r.batch = b := by
  intro fs
  induction fs with
  | nil =>
    intro t
    exact ⟨[], [], by simp [runUps], by simp, by simp⟩
  | cons f fs ih =>
    intro t
    simp only [runUps]
    rcases dbMigrateUp_cases cfg f b t with ⟨heq, _⟩ | ⟨heq, _, _⟩
    · refine ⟨[], f :: fs, ?_, by simp, by simp⟩
      rw [heq]
      simp
    · rw [heq]
      rcases ih (⟨t.ledger ++ [⟨t.nextId, f, b⟩], t.nextId + 1⟩ : St) with ⟨nr, q, h1, h2, h3⟩
      refine ⟨⟨t.nextId, f, b⟩ :: nr, q, ?_, ?_, ?_⟩
      · simp only [Bool.false_eq_true, if_true]
        rw [h1]
        simp
      · simp only [List.map_cons, List.cons_append]
        rw [← h2]
      · intro r hr
        rcases List.mem_cons.1 hr with rfl | hr'
        · rfl
        · exact h3 r hr'

theorem runUps_head_applied (cfg : Config) (b : Nat) (f₀ : String) (rest : List String)
    (t : St) (h : f₀ ∈ appliedNames t) : (runUps cfg b (f₀ :: rest) t).1 = t := by
  simp only [runUps]
  rcases dbMigrateUp_cases cfg f₀ b t with ⟨heq, _⟩ | ⟨heq, _, hcon⟩
  · rw [heq]
    simp
  · exfalso
    rw [contains_eq_decide] at hcon
    exact (of_decide_eq_false hcon) h

end Migrate

namespace Migrate

/-- Mid-invocation invariant of a `latest` domain loop that started from
`s₀` with the `applied` snapshot and invocation batch `b`: the ledger has
grown only by batch-`b` rows and, for every domain, the batch-`b` rows
matching that domain's registry are an initial segment of the domain's
pending list. -/
def LatestMid (cfg : Config) (applied : List String) (b : Nat) (s₀ t : St) : Prop :=
  ∃ Δ : List Row,
    t.ledger = s₀.ledger ++ Δ
    ∧ (∀ r ∈ Δ, r.batch = b)
    ∧ ∀ d : String, ∃ q : List String,
        (getMigrationFiles cfg d).filter (fun f => !(applied.contains f))
          = (Δ.filter (fun r => (getMigrationFiles cfg d).contains r.name)).map (·.name) ++ q

theorem runUps_preserves_mid (cfg : Config) (hwf : WF cfg) (applied : List String)
    (b : Nat) (s₀ : St) (e : String) (t : St)
    (hmid : LatestMid cfg applied b s₀ t) :
    LatestMid cfg applied b s₀
      (runUps cfg b ((getMigrationFiles cfg e).filter (fun f => !(applied.contains f))) t).1 := by
  rcases hmid with ⟨Δ, hled, hbatch, hpref⟩
  rcases hpref e with ⟨qe, hqe⟩
  cases hfe : (Δ.filter (fun r => (getMigrationFiles cfg e).contains r.name)).map (·.name) with
  | nil =>
    rcases runUps_shape cfg b ((getMigrationFiles cfg e).filter (fun f => !(applied.contains f))) t
      with ⟨nr, q', h1, h2, h3⟩
    have hnr_reg : ∀ r ∈ nr, r.name ∈ getMigrationFiles cfg e := by
      intro r hr
      have hmem : r.name ∈ (getMigrationFiles cfg e).filter (fun f => !(applied.contains f)) := by
        rw [h2]
        exact List.mem_append_left _ (List.mem_map_of_mem (·.name) hr)
      exact List.mem_of_mem_filter hmem
    refine ⟨Δ ++ nr, ?_, ?_, ?_⟩
    · rw [h1, hled, List.append_assoc]
    · intro r hr
      rcases List.mem_append.1 hr with hr' | hr'
      · exact hbatch r hr'
      · exact h3 r hr'
    · intro d
      by_cases hde : d = e
      · subst hde
        refine ⟨q', ?_⟩
        rw [List.filter_append, List.map_append]
        have hfilnil : Δ.filter (fun r => (getMigrationFiles cfg d).contains r.name) = [] := by
          cases hcase : Δ.filter (fun r => (getMigrationFiles cfg d).contains r.name) with
          | nil => rfl
          | cons a l => rw [hcase] at hfe; exact absurd hfe (by simp)
        have hnrfil : nr.filter (fun r => (getMigrationFiles cfg d).contains r.name) = nr := by
          apply List.filter_eq_self.2
          intro r hr
          rw [contains_eq_decide]
          exact decide_eq_true (hnr_reg r hr)
        rw [hfilnil, hnrfil]
        simpa using h2
      · rcases hpref d with ⟨qd, hqd⟩
        refine ⟨qd, ?_⟩
        rw [List.filter_append, List.map_append]
        have hnil : nr.filter (fun r => (getMigrationFiles cfg d).contains r.name) = [] := by
          apply List.filter_eq_nil_iff.2
          intro r hr hc
          have hrd : r.name ∈ getMigrationFiles cfg d := by simpa using hc
          exact WF_disjoint cfg hwf hde hrd (hnr_reg r hr)
        rw [hnil]
        simpa using hqd
  | cons f₀ rest =>
    have hpend_cons : (getMigrationFiles cfg e).filter (fun f => !(applied.contains f))
        = f₀ :: (rest ++ qe) := by
      rw [hqe, hfe]
      rfl
    have hf₀ : f₀ ∈ appliedNames t := by
      have hmem : f₀ ∈ (Δ.filter (fun r => (getMigrationFiles cfg e).contains r.name)).map (·.name) := by
        rw [hfe]
        exact List.mem_cons_self f₀ rest
      rcases List.mem_map.1 hmem with ⟨r, hr, hname⟩
      have hrΔ : r ∈ Δ := List.mem_of_mem_filter hr
      have hrt : r ∈ t.ledger := by
        rw [hled]
        exact List.mem_append_right _ hrΔ
      exact hname ▸ List.mem_map_of_mem (·.name) hrt
    rw [hpend_cons, runUps_head_applied cfg b f₀ (rest ++ qe) t hf₀]
    exact ⟨Δ, hled, hbatch, hpref⟩

theorem runLatestDomains_preserves_mid (cfg : Config) (hwf : WF cfg)
    (applied : List String) (b : Nat) (s₀ : St) :
    ∀ (ds : List String) (t : St), LatestMid cfg applied b s₀ t →
      LatestMid cfg applied b s₀ (runLatestDomains cfg applied b ds t).1 := by
  intro ds
  induction ds with
  | nil => intro t h; simpa [runLatestDomains] using h
  | cons e ds ih =>
    intro t h
    simp only [runLatestDomains]
    by_cases hok :
        (runUps cfg b ((getMigrationFiles cfg e).filter (fun f => !(applied.contains f))) t).2.2
    · rw [if_pos hok]
      exact ih _ (runUps_preserves_mid cfg hwf applied b s₀ e t h)
    · rw [if_neg hok]
      exact runUps_preserves_mid cfg hwf applied b s₀ e t h

end Migrate

namespace Migrate

/-- The key reachability invariant behind reverse-order rollback: within any
one batch, the ledger rows matching any one domain's registry appear in
ascending filename order (the ledger list being in ascending-`id` order). -/
def RegSorted (cfg : Config) (s : St) : Prop :=
  ∀ (b : Nat) (d : String),
    ((s.ledger.filter (fun r =>
        r.batch == b && (getMigrationFiles cfg d).contains r.name)).map (·.name)).Pairwise
      (fun a b => strLe a b = true)

theorem RegSorted_of_sublist {cfg : Config} {s s' : St}
    (h : s'.ledger.Sublist s.ledger) (hs : RegSorted cfg s) : RegSorted cfg s' := by
  intro b d
  exact List.Pairwise.sublist (List.Sublist.map _ (List.Sublist.filter _ h)) (hs b d)

theorem RegSorted_latest (cfg : Config) (hwf : WF cfg) (s : St)
    (hs : RegSorted cfg s) (ds : List String) :
    RegSorted cfg (runMigrations cfg ds "latest" s).1 := by
  have hrm : (runMigrations cfg ds "latest" s).1
      = (runLatestDomains cfg (appliedNames s) (getLatestBatch s + 1) ds s).1 := by
    simp [runMigrations]
  have hmid : LatestMid cfg (appliedNames s) (getLatestBatch s + 1) s
      (runLatestDomains cfg (appliedNames s) (getLatestBatch s + 1) ds s).1 :=
    runLatestDomains_preserves_mid cfg hwf (appliedNames s) (getLatestBatch s + 1) s ds s
      ⟨[], by simp, by simp, fun d => ⟨(getMigrationFiles cfg d).filter
        (fun f => !((appliedNames s).contains f)), by simp⟩⟩
  rcases hmid with ⟨Δ, hled, hbatch, hpref⟩
  intro b' d
  rw [hrm, hled, List.filter_append, List.map_append]
  by_cases hb : b' = getLatestBatch s + 1
  · subst hb
    have hsnil : s.ledger.filter (fun r =>
        r.batch == getLatestBatch s + 1 && (getMigrationFiles cfg d).contains r.name) = [] := by
      apply List.filter_eq_nil_iff.2
      intro r hr hc
      rw [Bool.and_eq_true] at hc
      have hb' : r.batch = getLatestBatch s + 1 := eq_of_beq hc.1
      have := batch_le_getLatestBatch s r hr
      omega
    rw [hsnil]
    simp only [List.map_nil, List.nil_append]
    have hΔeq : Δ.filter (fun r =>
          r.batch == getLatestBatch s + 1 && (getMigrationFiles cfg d).contains r.name)
        = Δ.filter (fun r => (getMigrationFiles cfg d).contains r.name) := by
      apply List.filter_congr
      intro r hr
      rw [hbatch r hr]
      simp
    rw [hΔeq]
    rcases hpref d with ⟨q, hq⟩
    have hsorted_pend : ((getMigrationFiles cfg d).filter
        (fun f => !((appliedNames s).contains f))).Pairwise (fun a b => strLe a b = true) :=
      List.Pairwise.sublist (List.filter_sublist _) (getMigrationFiles_sorted cfg d)
    have hsub : ((Δ.filter (fun r => (getMigrationFiles cfg d).contains r.name)).map
        (·.name)).Sublist ((getMigrationFiles cfg d).filter
          (fun f => !((appliedNames s).contains f))) := by
      rw [hq]
      exact List.sublist_append_left _ _
    exact List.Pairwise.sublist hsub hsorted_pend
  · have hΔnil : Δ.filter (fun r =>
        r.batch == b' && (getMigrationFiles cfg d).contains r.name) = [] := by
      apply List.filter_eq_nil_iff.2
      intro r hr hc
      rw [Bool.and_eq_true] at hc
      have hb' : r.batch = b' := eq_of_beq hc.1
      exact hb (hb'.symm.trans (hbatch r hr))
    rw [hΔnil]
    simpa using hs b' d

theorem RegSorted_up (cfg : Config) (s : St) (hs : RegSorted cfg s) (f : String) :
    RegSorted cfg (runSingleMigration cfg f "up" s).1 := by
  unfold runSingleMigration
  by_cases hk : knownMigration cfg f
  · rw [if_neg (show ¬(!(knownMigration cfg f)) = true by simp [hk])]
    rw [if_pos rfl]
    rcases dbMigrateUp_cases cfg f (getLatestBatch s + 1) s with ⟨heq, _⟩ | ⟨heq, _, _⟩
    · rw [heq]
      exact hs
    · rw [heq]
      intro b' d
      show (((s.ledger ++ [(⟨s.nextId, f, getLatestBatch s + 1⟩ : Row)]).filter (fun r =>
          r.batch == b' && (getMigrationFiles cfg d).contains r.name)).map (·.name)).Pairwise
        (fun a b => strLe a b = true)
      rw [List.filter_append, List.map_append]
      by_cases hb : b' = getLatestBatch s + 1
      · subst hb
        have hsnil : s.ledger.filter (fun r =>
            r.batch == getLatestBatch s + 1 && (getMigrationFiles cfg d).contains r.name)
              = [] := by
          apply List.filter_eq_nil_iff.2
          intro r hr hc
          rw [Bool.and_eq_true] at hc
          have hb' : r.batch = getLatestBatch s + 1 := eq_of_beq hc.1
          have := batch_le_getLatestBatch s r hr
          omega
        rw [hsnil]
        simp only [List.map_nil, List.nil_append]
        by_cases hmem : f ∈ getMigrationFiles cfg d
        · simp [List.filter_cons, hmem, List.pairwise_singleton]
        · simp [List.filter_cons, hmem]
      · have hone : ([⟨s.nextId, f, getLatestBatch s + 1⟩] : List Row).filter (fun r =>
            r.batch == b' && (getMigrationFiles cfg d).contains r.name) = [] := by
          apply List.filter_eq_nil_iff.2
          intro r hr hc
          have hrr : r = ⟨s.nextId, f, getLatestBatch s + 1⟩ := List.mem_singleton.1 hr
          rw [Bool.and_eq_true] at hc
          have hb' : r.batch = b' := eq_of_beq hc.1
          exact hb (hb'.symm.trans (by rw [hrr]))
        rw [hone]
        simpa using hs b' d
  · rw [if_pos (show (!(knownMigration cfg f)) = true by simp [hk])]
    exact hs

theorem runSingleMigration_down_sublist (cfg : Config) (f : String) (s : St) :
    (runSingleMigration cfg f "down" s).1.ledger.Sublist s.ledger := by
  unfold runSingleMigration
  by_cases hk : knownMigration cfg f
  · rw [if_neg (show ¬(!(knownMigration cfg f)) = true by simp [hk])]
    rw [if_neg (by decide : ¬("down" : String) = "up")]
    exact dbMigrateDown_sublist cfg f s
  · rw [if_pos (show (!(knownMigration cfg f)) = true by simp [hk])]

theorem reachable_RegSorted (cfg : Config) (hwf : WF cfg) (s : St)
    (h : Reachable cfg s) : RegSorted cfg s := by
  induction h with
  | init => intro b d; simp [St.init]
  | step c _ ih =>
    cases c with
    | latestC ds => exact RegSorted_latest cfg hwf _ ih ds
    | rollbackC ds =>
      apply RegSorted_of_sublist _ ih
      show (runMigrations cfg ds "rollback" _).1.ledger.Sublist _
      rw [show ∀ t : St, (runMigrations cfg ds "rollback" t).1
        = (runRollbackDomains cfg ds t).1 from fun t => by simp [runMigrations]]
      exact runRollbackDomains_sublist cfg ds _
    | statusC ds =>
      show RegSorted cfg (runMigrations cfg ds "status" _).1
      rw [status_noop]
      exact ih
    | removeC ds =>
      apply RegSorted_of_sublist _ ih
      exact runRemoveDomains_sublist cfg ds.reverse _
    | upC f => exact RegSorted_up cfg _ ih f
    | downC f =>
      apply RegSorted_of_sublist _ ih
      exact runSingleMigration_down_sublist cfg f _

end Migrate

namespace Migrate

/-- C5: in every reachable ledger state, the rows a `rollback` invocation
selects for a domain (`toRollback`: latest-batch rows of that domain's
registry, ordered by `id` descending) carry names in strictly descending
lexical order — reverse file order, the filenames embedding their zero-padded
sequence numbers. -/
theorem rollback_reverse_order (cfg : Config) (s : St) (hwf : WF cfg)
    (hreach : Reachable cfg s) (d : String) :
    ((toRollback cfg d s).map (·.name)).Pairwise
      (fun a b => strLe b a = true ∧ a ≠ b) := by
  have hsorted := reachable_RegSorted cfg hwf s hreach (getLatestBatch s) d
  have hnodup : ((s.ledger.filter (fun r =>
      r.batch == getLatestBatch s && (getMigrationFiles cfg d).contains r.name)).map
        (·.name)).Nodup :=
    List.Nodup.sublist (List.Sublist.map _ (List.filter_sublist _))
      (nodup_of_reachable cfg s hreach)
  have hcomb := List.Pairwise.and hsorted hnodup
  unfold toRollback
  rw [List.map_reverse, List.pairwise_reverse]
  exact List.Pairwise.imp (fun h => ⟨h.1, fun he => h.2 he.symm⟩) hcomb

/-- Witness for `rollback_reverse_order`: after `latest d,e` on `cfgO`, the
rollback selection for domain `d` lists `d-03-c.js`, `d-02-b.js`,
`d-01-a.js`. -/
theorem rollback_reverse_order_witness :
    ((toRollback cfgO "d" (execCmd cfgO (Cmd.latestC ["d", "e"]) St.init)).map
      (·.name)).Pairwise (fun a b => strLe b a = true ∧ a ≠ b) :=
  rollback_reverse_order cfgO (execCmd cfgO (Cmd.latestC ["d", "e"]) St.init) cfgO_wf
    (Reachable.step (Cmd.latestC ["d", "e"]) Reachable.init) "d"

end Migrate
